import Mathlib

/-!
Shallow embedding of the word-to-mapping resolution engine of
`enhanced_script.js` (the `IntelligentWordAnalyzer` class together with the
`extractRootData` index builder), over which the claims about the
Sinographic lexicon system are settled.

Strings are modelled by Lean `String`; the JavaScript string operations used
by the engine (`toLowerCase`, `trim`, `slice`, `startsWith`, `endsWith`,
`includes`, `length`) are modelled on the underlying character lists, in
their ASCII behaviour (all concrete data in the repository is ASCII on the
English side).  JavaScript numbers appearing as confidences are exact
decimal constants, modelled as rationals.  The single shared object
`ROOT_DATABASE` is modelled as a function from string keys to an optional
stored value, which is either a single lexicon entry (the direct index) or
an array of entries (a `length_<n>` / `letter_<c>` secondary-index bucket).
A JavaScript runtime error (calling `.push` on a non-array) is modelled by
`Option`: the store builder returns `none` where the script would throw.
-/

namespace Sinographic

/-- a lexicon entry as loaded from `sinographic_mapping.json`
(`english`, `chinese`, `pinyin`, `category`, `priority`). -/
structure Entry where
  english : String
  chinese : String
  pinyin : String
  category : String
  priority : Int
  deriving DecidableEq

/-- a value stored in `ROOT_DATABASE`: either a single entry (direct index,
`ROOT_DATABASE[eng] = word`) or an array of entries (a secondary-index
bucket `length_<n>` / `letter_<c>`). -/
inductive RootVal where
  | entry (e : Entry)
  | bucket (l : List Entry)
  deriving DecidableEq

/-- the `ROOT_DATABASE` object: a map from string keys to stored values. -/
def DB : Type := String → Option RootVal

/-- length of a JavaScript string (`.length`), as the number of characters. -/
def sLen (s : String) : Nat := s.data.length

/-- JavaScript `String.prototype.toLowerCase` (ASCII model). -/
def jsLower (s : String) : String := ⟨s.data.map Char.toLower⟩

/-- whitespace test used by the `trim` model. -/
def isWs (c : Char) : Bool := c.isWhitespace

/-- trimming of a character list on both ends. -/
def trimList (l : List Char) : List Char :=
  ((l.dropWhile isWs).reverse.dropWhile isWs).reverse

/-- JavaScript `String.prototype.trim` (ASCII model). -/
def jsTrim (s : String) : String := ⟨trimList s.data⟩

/-- the engine's input normalisation, `word.toLowerCase().trim()`. -/
def normalize (s : String) : String := jsTrim (jsLower s)

/-- JavaScript `s.slice(0, -n)`: drop the last `n` characters. -/
def dropSuffixN (s : String) (n : Nat) : String := ⟨s.data.take (s.data.length - n)⟩

/-- JavaScript `s.slice(n)`: drop the first `n` characters. -/
def dropPrefixN (s : String) (n : Nat) : String := ⟨s.data.drop n⟩

/-- JavaScript `s.includes(t)`: `t` occurs as a contiguous substring of `s`
(in particular every string includes the empty string). -/
def includes (s t : String) : Bool := decide (t.data <:+: s.data)

/-- decimal digit conversion with explicit fuel (the fuel is only a
structural-recursion device; it never runs out when it starts at the
number itself). -/
def decDigitsAux : Nat → Nat → List Char
  | _, 0 => []
  | 0, _ + 1 => []
  | fuel + 1, n + 1 => decDigitsAux fuel ((n + 1) / 10) ++ [Nat.digitChar ((n + 1) % 10)]

/-- decimal digit list of a positive number, most significant first
(the recursion of number-to-decimal-string conversion). -/
def decDigits (n : Nat) : List Char := decDigitsAux n n

/-- decimal representation of a number, as produced by JavaScript template
interpolation of a nonnegative integer. -/
def decRepr (n : Nat) : List Char := if n = 0 then ['0'] else decDigits n

/-- the secondary-index key built by `` `length_${eng.length}` ``. -/
def lengthKey (n : Nat) : String := ⟨"length_".data ++ decRepr n⟩

/-- the secondary-index key built by `` `letter_${firstLetter}` `` for a
given first character. -/
def letterKey (c : Char) : String := ⟨"letter_".data ++ [c]⟩

/-- the letter key of a word: JavaScript `eng[0]` is `undefined` for the
empty string, and interpolates to the text `undefined`. -/
def letterKeyOf (eng : String) : String :=
  match eng.data.head? with
  | some c => letterKey c
  | none => "letter_undefined"

/-- assignment `ROOT_DATABASE[k] = v`. -/
def setK (m : DB) (k : String) (v : RootVal) : DB :=
  fun s => if s = k then some v else m s

/-- the bucket update `if (!ROOT_DATABASE[k]) ROOT_DATABASE[k] = [];
ROOT_DATABASE[k].push(word)`.  Pushing onto a stored single entry is the
JavaScript `TypeError` case, modelled as `none`. -/
def pushK (m : DB) (k : String) (e : Entry) : Option DB :=
  match m k with
  | none => some (setK m k (.bucket [e]))
  | some (.bucket l) => some (setK m k (.bucket (l ++ [e])))
  | some (.entry _) => none

/-- one iteration of the `WORD_DATABASE.forEach` loop of `extractRootData`:
direct index write, then length-bucket push, then letter-bucket push. -/
def insertWord (m : DB) (e : Entry) : Option DB :=
  let eng := jsLower e.english
  let m1 := setK m eng (.entry e)
  match pushK m1 (lengthKey (sLen eng)) e with
  | none => none
  | some m2 => pushK m2 (letterKeyOf eng) e

/-- folding `extractRootData` over the remaining word list, starting from a
partially built store. -/
def buildFrom (m : DB) : List Entry → Option DB
  | [] => some m
  | e :: t =>
    match insertWord m e with
    | none => none
    | some m2 => buildFrom m2 t

/-- the empty store `ROOT_DATABASE = {}`. -/
def emptyDB : DB := fun _ => none

/-- `extractRootData`: build `ROOT_DATABASE` from the loaded word list. -/
def buildDB (l : List Entry) : Option DB := buildFrom emptyDB l

/-- `MORPHEME_RULES.inflections`. -/
def inflectionList : List String := ["s", "es", "ed", "ing", "er", "est"]

/-- `MORPHEME_RULES.prefixes`. -/
def morphemePrefixes : List String :=
  ["un", "dis", "re", "pre", "mis", "over", "under", "sub", "super", "inter", "intra", "trans"]

/-- `MORPHEME_RULES.suffixes`. -/
def morphemeSuffixes : List String :=
  ["ing", "ed", "s", "es", "ly", "ment", "ness", "tion", "sion", "able", "ible", "al",
   "ial", "ful", "less", "ize", "ise", "ity", "ism", "ist", "ance", "ence", "hood", "ship", "dom"]

/-- `getInflectionMeaning`: gloss table for inflection endings. -/
def getInflectionMeaning (i : String) : String :=
  if i = "s" then "复数" else if i = "es" then "复数" else if i = "ed" then "过去式"
  else if i = "ing" then "进行式" else if i = "er" then "比较级"
  else if i = "est" then "最高级" else ""

/-- `getPrefixMeaning`: gloss table for the configured word-initial affixes. -/
def getPrefixMeaning (p : String) : String :=
  if p = "un" then "不" else if p = "dis" then "非" else if p = "re" then "再"
  else if p = "pre" then "前" else if p = "mis" then "误" else if p = "over" then "过"
  else if p = "under" then "不足" else if p = "sub" then "下" else if p = "super" then "超"
  else if p = "inter" then "间" else if p = "intra" then "内"
  else if p = "trans" then "跨" else ""

/-- `getSuffixMeaning`: gloss table for the configured word-final affixes. -/
def getSuffixMeaning (s : String) : String :=
  if s = "ing" then "中" else if s = "ed" then "了" else if s = "s" then "们"
  else if s = "es" then "们" else if s = "ly" then "地" else if s = "ment" then ""
  else if s = "ness" then "性" else if s = "tion" then "" else if s = "sion" then ""
  else if s = "able" then "可" else if s = "ible" then "可" else if s = "al" then "的"
  else if s = "ial" then "的" else if s = "ful" then "充满" else if s = "less" then "无"
  else if s = "ize" then "化" else if s = "ise" then "化" else if s = "ity" then "性"
  else if s = "ism" then "主义" else if s = "ist" then "家" else if s = "ance" then ""
  else if s = "ence" then "" else if s = "hood" then "状态" else if s = "ship" then "关系"
  else if s = "dom" then "领域" else ""

/-- one item of a decomposition trace.  The JavaScript objects carry a
subset of the fields `part`, `type`, `chinese`, `meaning`, `match` (the
last renamed `matched` here, `match` being a Lean keyword); absent fields
are `none`. -/
structure Decomp where
  part : String
  type : String
  chinese : Option String := none
  meaning : Option String := none
  matched : Option RootVal := none
  deriving DecidableEq

/-- the `chinese` field read off a stored value: `undefined` (here `none`)
when the stored value is an index bucket rather than an entry. -/
def rvChinese : RootVal → Option String
  | .entry e => some e.chinese
  | .bucket _ => none

/-- reading `.chinese` in a string-concatenation position: JavaScript turns
`undefined` into the text `undefined` under the `+` operator. -/
def plusChinese (r : RootVal) : String := (rvChinese r).getD "undefined"

/-- the value placed in `analysis.result`: a stored value as-is, a stored
value spread with an overridden `chinese` field (the affix strategies), or
the synthesized compound entry (which carries `compound: true`). -/
inductive ResVal where
  | entryV (e : Entry)
  | bucketV (l : List Entry)
  | spreadBucketV (l : List Entry) (chinese : String)
  | compoundV (e : Entry)
  deriving DecidableEq

/-- coercion of a directly looked-up stored value into a result value. -/
def rvToRes : RootVal → ResVal
  | .entry e => .entryV e
  | .bucket l => .bucketV l

/-- the affix strategies' `{...baseMatch, chinese: c}` object spread. -/
def spreadWithChinese : RootVal → String → ResVal
  | .entry e, c => .entryV { e with chinese := c }
  | .bucket l, c => .spreadBucketV l c

/-- `directMatch(word)`: `ROOT_DATABASE[word] || null` (stored entries and
buckets are always truthy). -/
def directMatch (m : DB) (w : String) : Option RootVal := m w

/-- output of `matchInflections`. -/
structure InflOut where
  result : RootVal
  decomposition : List Decomp
  deriving DecidableEq

/-- one iteration of the `matchInflections` loop for a single ending. -/
def tryInflection (m : DB) (w : String) (infl : String) : Option InflOut :=
  if infl.data <:+ w.data then
    let base := dropSuffixN w (sLen infl)
    match directMatch m base with
    | some mv =>
      some { result := mv,
             decomposition :=
               [ { part := base, type := "base", chinese := rvChinese mv },
                 { part := infl, type := "inflection",
                   chinese := some (getInflectionMeaning infl) } ] }
    | none => none
  else none

/-- `matchInflections(word)`: first ending in `MORPHEME_RULES.inflections`
order whose stripped stem has a direct match. -/
def matchInflections (m : DB) (w : String) : Option InflOut :=
  inflectionList.findSome? (tryInflection m w)

/-- output of `matchWithAffixes`. -/
structure AffixOut where
  type : String
  confidence : ℚ
  result : ResVal
  decomposition : List Decomp
  deriving DecidableEq

/-- one iteration of the word-initial-affix loop of `matchWithAffixes`. -/
def tryAffixPre (m : DB) (w : String) (p : String) : Option AffixOut :=
  if p.data <+: w.data ∧ sLen p + 2 < sLen w then
    let base := dropPrefixN w (sLen p)
    match directMatch m base with
    | some bm =>
      some { type := "prefixed", confidence := mkRat 85 100,
             result := spreadWithChinese bm (getPrefixMeaning p ++ plusChinese bm),
             decomposition :=
               [ { part := p, type := "prefix", meaning := some (getPrefixMeaning p) },
                 { part := base, type := "base", chinese := rvChinese bm } ] }
    | none => none
  else none

/-- one iteration of the word-final-affix loop of `matchWithAffixes`. -/
def tryAffixSuf (m : DB) (w : String) (s : String) : Option AffixOut :=
  if s.data <:+ w.data ∧ sLen s + 2 < sLen w then
    let base := dropSuffixN w (sLen s)
    match directMatch m base with
    | some bm =>
      some { type := "suffixed", confidence := mkRat 80 100,
             result := spreadWithChinese bm (plusChinese bm ++ getSuffixMeaning s),
             decomposition :=
               [ { part := base, type := "base", chinese := rvChinese bm },
                 { part := s, type := "suffix", meaning := some (getSuffixMeaning s) } ] }
    | none => none
  else none

/-- `matchWithAffixes(word)`: the full word-initial-affix loop, then the
word-final-affix loop. -/
def matchWithAffixes (m : DB) (w : String) : Option AffixOut :=
  match morphemePrefixes.findSome? (tryAffixPre m w) with
  | some a => some a
  | none => morphemeSuffixes.findSome? (tryAffixSuf m w)

/-- `calculateSimilarity(str1, str2)`: 1 on equality, 0.9 on either-way
substring containment, otherwise the character-set overlap ratio (Jaccard
index of the character sets; the `longer`/`shorter` locals of the source
are dead code and are omitted). -/
def calculateSimilarity (s1 s2 : String) : ℚ :=
  if s1 = s2 then 1
  else if includes s1 s2 || includes s2 s1 then mkRat 9 10
  else
    ((s1.data.toFinset ∩ s2.data.toFinset).card : ℚ) /
      ((s1.data.toFinset ∪ s2.data.toFinset).card : ℚ)

/-- contents of the `length_<n>` bucket as iterated by `findSimilarWords`
(`ROOT_DATABASE[length_n] || []`).  A stored single entry under a length
key would make the JavaScript `for...of` throw; for the well-formed stores
considered by the theorems below that key never holds a single entry. -/
def bucketAt (m : DB) (n : Nat) : List Entry :=
  match m (lengthKey n) with
  | some (.bucket l) => l
  | _ => []

/-- the candidate filter of `findSimilarWords`: keep an entry whose
similarity to the word reaches the 0.7 threshold, paired with that
similarity. -/
def candOf (w : String) (c : Entry) : Option (Entry × ℚ) :=
  let sim := calculateSimilarity w (jsLower c.english)
  if mkRat 7 10 ≤ sim then some (c, sim) else none

/-- the lower end of the scanned length window,
`Math.max(3, targetLength - 3)`. -/
def fuzzyLo (L : Nat) : Nat := max 3 (L - 3)

/-- the upper end of the scanned length window, `targetLength + 3`. -/
def fuzzyHi (L : Nat) : Nat := L + 3

/-- the entries actually iterated by the candidate search of
`findSimilarWords`: the `length_<n>` buckets for `n` from
`max(3, len - 3)` to `len + 3` inclusive, in ascending length order. -/
def scannedEntries (m : DB) (w : String) : List Entry :=
  (List.range' (fuzzyLo (sLen w)) (fuzzyHi (sLen w) + 1 - fuzzyLo (sLen w))).flatMap
    (bucketAt m)

/-- the candidate list of `findSimilarWords`, in scan order. -/
def fuzzyCandidates (m : DB) (w : String) : List (Entry × ℚ) :=
  (List.range' (fuzzyLo (sLen w)) (fuzzyHi (sLen w) + 1 - fuzzyLo (sLen w))).flatMap
    (fun len => (bucketAt m len).filterMap (candOf w))

/-- the comparator `(a, b) => b.similarity - a.similarity` as the total
preorder used for the stable sort: descending similarity. -/
def simGE (a b : Entry × ℚ) : Prop := b.2 ≤ a.2

instance : DecidableRel simGE := fun a b => inferInstanceAs (Decidable (b.2 ≤ a.2))

instance : IsTotal (Entry × ℚ) simGE := ⟨fun a b => le_total b.2 a.2⟩

instance : IsTrans (Entry × ℚ) simGE := ⟨fun _ _ _ h1 h2 => le_trans h2 h1⟩

/-- output of `findSimilarWords`. -/
structure SimOut where
  confidence : ℚ
  result : Entry
  suggestions : List Entry
  deriving DecidableEq

/-- `findSimilarWords(word)`: collect threshold-passing candidates from
the nearby-length buckets, sort them stably by descending similarity, and
return the top candidate together with the next up to four as suggestions.
JavaScript `Array.prototype.sort` is a stable sort, and a stable sort's
output is uniquely determined by the comparator and the input order, so
the stable `insertionSort` models it exactly. -/
def findSimilarWords (m : DB) (w : String) : Option SimOut :=
  match (fuzzyCandidates m w).insertionSort simGE with
  | [] => none
  | top :: rest =>
    some { confidence := top.2, result := top.1,
           suggestions := (rest.take 4).map (fun c => c.1) }

/-- a structural compound pattern: either `^(\w+)(alt1|alt2|...)$` or
`^(alt1|alt2|...)(\w+)$`. -/
inductive Pat where
  | stemSuffix (alts : List String)
  | prefixStem (alts : List String)
  deriving DecidableEq

/-- the `\w` character class, `[A-Za-z0-9_]`. -/
def isWordChar (c : Char) : Bool := c.isAlphanum || c = '_'

/-- matching of `^(\w+)(alt1|alt2|...)$` against a word: some alternative
is the word's ending and the remaining stem is a nonempty run of word
characters.  No listed alternative is a proper ending of another, so at
most one alternative can apply and trying them in listed order is the
regular-expression behaviour. -/
def stemSuffixMatch (w : String) (alts : List String) : Option (List String) :=
  alts.findSome? fun alt =>
    if alt.data <:+ w.data then
      let stem := dropSuffixN w (sLen alt)
      if stem.data ≠ [] ∧ stem.data.all isWordChar then some [stem, alt] else none
    else none

/-- matching of `^(alt1|alt2|...)(\w+)$` against a word: some alternative
starts the word and the rest is a nonempty run of word characters.  No
listed alternative starts another, so at most one alternative can apply. -/
def prefixStemMatch (w : String) (alts : List String) : Option (List String) :=
  alts.findSome? fun alt =>
    if alt.data <+: w.data then
      let rest := dropPrefixN w (sLen alt)
      if rest.data ≠ [] ∧ rest.data.all isWordChar then some [alt, rest] else none
    else none

/-- capture groups (`match.slice(1)`) of matching one compound pattern. -/
def matchPat (w : String) : Pat → Option (List String)
  | .stemSuffix alts => stemSuffixMatch w alts
  | .prefixStem alts => prefixStemMatch w alts

/-- the fixed ordered compound pattern list of `analyzeCompoundWord`. -/
def compoundPatterns : List Pat :=
  [ .stemSuffix ["graphy", "logy", "nomy", "sophy", "pathy", "metry", "scopy"],
    .stemSuffix ["able", "ible", "ful", "less", "ness", "ment", "tion", "sion", "ance", "ence"],
    .prefixStem ["micro", "macro", "tele", "hydro", "psych", "chron", "geo", "bio", "astro", "therm", "photo"],
    .stemSuffix ["proof", "resistant", "free", "wise", "like", "worthy"] ]

/-- the all-or-nothing per-part resolution loop of `analyzeCompoundWord`:
every part must have a direct match, otherwise the whole attempt fails. -/
def componentDecomp (m : DB) : List String → Option (List Decomp)
  | [] => some []
  | p :: rest =>
    match directMatch m p with
    | some mv =>
      match componentDecomp m rest with
      | some ds =>
        some ({ part := p, type := "component", chinese := rvChinese mv,
                matched := some mv } :: ds)
      | none => none
    | none => none

/-- `decomposition.map(d => d.chinese).join('')`: JavaScript `join` turns
`undefined` elements into the empty string. -/
def joinGloss (ds : List Decomp) : String :=
  ⟨(ds.map (fun d => (d.chinese.getD "").data)).flatten⟩

/-- output of `analyzeCompoundWord`. -/
structure CompOut where
  confidence : ℚ
  result : Entry
  decomposition : List Decomp
  deriving DecidableEq

/-- one iteration of the pattern loop of `analyzeCompoundWord`: on a
pattern match, keep the capture groups of length at least 3; at least two
must remain and all must resolve directly, else this pattern contributes
nothing and the loop moves on. -/
def tryPattern (m : DB) (w : String) (p : Pat) : Option CompOut :=
  match matchPat w p with
  | none => none
  | some groups =>
    let parts := groups.filter (fun s => 3 ≤ sLen s)
    if 2 ≤ parts.length then
      match componentDecomp m parts with
      | some ds =>
        if 2 ≤ ds.length then
          some { confidence := mkRat 3 4,
                 result := { english := w, chinese := joinGloss ds, pinyin := "",
                             category := "Compound", priority := 4 },
                 decomposition := ds }
        else none
      | none => none
    else none

/-- `analyzeCompoundWord(word)`: nothing for words shorter than 6, else the
first fully resolving pattern in list order. -/
def analyzeCompoundWord (m : DB) (w : String) : Option CompOut :=
  if sLen w < 6 then none
  else compoundPatterns.findSome? (tryPattern m w)

/-- the per-strategy fields of an analysis (everything except the echoed
input, the normalised word and the timestamp). -/
structure StratOut where
  found : Bool
  confidence : ℚ
  matchType : String
  result : Option ResVal
  decomposition : List Decomp
  suggestions : List Entry
  deriving DecidableEq

/-- the initial `analysis` object of `analyze` before any strategy runs. -/
def notFoundOut : StratOut :=
  { found := false, confidence := 0, matchType := "not_found", result := none,
    decomposition := [], suggestions := [] }

/-- the strategy cascade of `analyze`, applied to the normalised word:
direct, inflection, affix, similar, compound, in this strict order, first
success wins. -/
def runCascade (m : DB) (lw : String) : StratOut :=
  match directMatch m lw with
  | some dm =>
    { notFoundOut with found := true, confidence := 1, matchType := "direct",
                       result := some (rvToRes dm) }
  | none =>
  match matchInflections m lw with
  | some im =>
    { notFoundOut with found := true, confidence := mkRat 95 100, matchType := "inflection",
                       result := some (rvToRes im.result),
                       decomposition := im.decomposition }
  | none =>
  match matchWithAffixes m lw with
  | some am =>
    { notFoundOut with found := true, confidence := am.confidence,
                       matchType := am.type, result := some am.result,
                       decomposition := am.decomposition }
  | none =>
  match findSimilarWords m lw with
  | some sm =>
    { notFoundOut with found := true, confidence := sm.confidence,
                       matchType := "similar", result := some (.entryV sm.result),
                       suggestions := sm.suggestions }
  | none =>
  match analyzeCompoundWord m lw with
  | some cm =>
    { notFoundOut with found := true, confidence := cm.confidence,
                       matchType := "compound", result := some (.compoundV cm.result),
                       decomposition := cm.decomposition }
  | none => notFoundOut

/-- the analysis object returned by `IntelligentWordAnalyzer.analyze`. -/
structure Analysis where
  original : String
  normalized : String
  found : Bool
  confidence : ℚ
  matchType : String
  result : Option ResVal
  decomposition : List Decomp
  suggestions : List Entry
  timestamp : Nat
  deriving DecidableEq

/-- `analyze(word)` on a cache miss: normalise, run the cascade, assemble
the analysis object (`timestamp: Date.now()` is the external clock value,
passed in as `now`). -/
def analyzeCore (m : DB) (word : String) (now : Nat) : Analysis :=
  let lw := normalize word
  let o := runCascade m lw
  { original := word, normalized := lw, found := o.found, confidence := o.confidence,
    matchType := o.matchType, result := o.result, decomposition := o.decomposition,
    suggestions := o.suggestions, timestamp := now }

/-- the analyzer's session cache, keyed by the normalised word. -/
def Cache : Type := String → Option Analysis

/-- `this.cache.set(lowerWord, analysis)`. -/
def setCache (c : Cache) (k : String) (v : Analysis) : Cache :=
  fun s => if s = k then some v else c s

/-- `analyze(word)` with the cache: return the cached analysis when the
normalised word was seen before, else compute and cache. -/
def analyze (m : DB) (c : Cache) (word : String) (now : Nat) : Analysis × Cache :=
  let lw := normalize word
  match c lw with
  | some a => (a, c)
  | none =>
    let r := analyzeCore m word now
    (r, setCache c lw r)

/-! Basic facts about decimal digit lists and the secondary-index keys. -/

theorem decDigits_zero : decDigits 0 = [] := rfl

theorem decDigitsAux_fuel : ∀ n f1 f2, n ≤ f1 → n ≤ f2 →
    decDigitsAux f1 n = decDigitsAux f2 n := by
  intro n
  induction n using Nat.strong_induction_on with
  | _ n ih =>
    intro f1 f2 h1 h2
    cases n with
    | zero => cases f1 <;> cases f2 <;> rfl
    | succ k =>
      cases f1 with
      | zero => omega
      | succ g1 =>
        cases f2 with
        | zero => omega
        | succ g2 =>
          show decDigitsAux g1 ((k + 1) / 10) ++ _ = decDigitsAux g2 ((k + 1) / 10) ++ _
          have hlt : (k + 1) / 10 < k + 1 := Nat.div_lt_self (Nat.succ_pos k) (by decide)
          rw [ih ((k + 1) / 10) hlt g1 ((k + 1) / 10) (by omega) (Nat.le_refl _),
              ih ((k + 1) / 10) hlt g2 ((k + 1) / 10) (by omega) (Nat.le_refl _)]

theorem decDigits_succ {n : Nat} (h : n ≠ 0) :
    decDigits n = decDigits (n / 10) ++ [Nat.digitChar (n % 10)] := by
  match n, h with
  | n + 1, _ =>
    show decDigitsAux (n + 1) (n + 1) = decDigitsAux ((n + 1) / 10) ((n + 1) / 10) ++ _
    have hlt : (n + 1) / 10 < n + 1 := Nat.div_lt_self (Nat.succ_pos n) (by decide)
    show decDigitsAux n ((n + 1) / 10) ++ _ = _
    rw [decDigitsAux_fuel ((n + 1) / 10) n ((n + 1) / 10) (by omega) (Nat.le_refl _)]

theorem decDigits_eq_nil_iff {n : Nat} : decDigits n = [] ↔ n = 0 := by
  constructor
  · intro h
    by_contra hn
    rw [decDigits_succ hn] at h
    simp at h
  · intro h
    subst h
    exact decDigits_zero

theorem digitChar_inj_lt :
    ∀ a, a < 10 → ∀ b, b < 10 → Nat.digitChar a = Nat.digitChar b → a = b := by
  decide

theorem decDigits_inj : ∀ m n : Nat, decDigits m = decDigits n → m = n := by
  intro m
  induction m using Nat.strong_induction_on with
  | _ m ih =>
    intro n h
    rcases Nat.eq_zero_or_pos m with hm | hm
    · subst hm
      rw [decDigits_zero] at h
      exact (decDigits_eq_nil_iff.mp h.symm).symm
    · rcases Nat.eq_zero_or_pos n with hn | hn
      · subst hn
        rw [decDigits_zero] at h
        exact decDigits_eq_nil_iff.mp h
      · rw [decDigits_succ (Nat.pos_iff_ne_zero.mp hm),
            decDigits_succ (Nat.pos_iff_ne_zero.mp hn)] at h
        have hlen : (decDigits (m / 10)).length = (decDigits (n / 10)).length := by
          have := congrArg List.length h
          simpa using this
        obtain ⟨h1, h2⟩ := List.append_inj h hlen
        have hd : m % 10 = n % 10 := by
          have h2c : Nat.digitChar (m % 10) = Nat.digitChar (n % 10) := by
            simpa using h2
          exact digitChar_inj_lt _ (Nat.mod_lt _ (by decide)) _ (Nat.mod_lt _ (by decide)) h2c
        have hq : m / 10 = n / 10 :=
          ih (m / 10) (Nat.div_lt_self hm (by decide)) (n / 10) h1
        calc m = 10 * (m / 10) + m % 10 := (Nat.div_add_mod m 10).symm
          _ = 10 * (n / 10) + n % 10 := by rw [hq, hd]
          _ = n := Nat.div_add_mod n 10

theorem decDigits_ne_digit0 {n : Nat} (hn : n ≠ 0) : decDigits n ≠ ['0'] := by
  intro h
  rw [decDigits_succ hn] at h
  have hl : (decDigits (n / 10)).length + 1 = 1 := by
    simpa using congrArg List.length h
  have h0 : decDigits (n / 10) = [] := List.eq_nil_of_length_eq_zero (by omega)
  rw [h0] at h
  simp only [List.nil_append, List.cons.injEq, and_true] at h
  have hm0 : n % 10 = 0 :=
    digitChar_inj_lt _ (Nat.mod_lt _ (by decide)) 0 (by decide) (by simpa using h)
  have hq : n / 10 = 0 := decDigits_eq_nil_iff.mp h0
  have := Nat.div_add_mod n 10
  omega

theorem decRepr_inj : ∀ m n : Nat, decRepr m = decRepr n → m = n := by
  intro m n h
  unfold decRepr at h
  by_cases hm : m = 0 <;> by_cases hn : n = 0
  · omega
  · rw [if_pos hm, if_neg hn] at h
    exact absurd h.symm (decDigits_ne_digit0 hn)
  · rw [if_neg hm, if_pos hn] at h
    exact absurd h (decDigits_ne_digit0 hm)
  · rw [if_neg hm, if_neg hn] at h
    exact decDigits_inj m n h

theorem digitChar_fix : ∀ d, d < 10 →
    Char.toLower (Nat.digitChar d) = Nat.digitChar d ∧ (Nat.digitChar d).isWhitespace = false := by
  decide

theorem decDigits_chars : ∀ n : Nat, ∀ c ∈ decDigits n,
    Char.toLower c = c ∧ c.isWhitespace = false := by
  intro n
  induction n using Nat.strong_induction_on with
  | _ n ih =>
    intro c hc
    rcases Nat.eq_zero_or_pos n with hn | hn
    · subst hn
      rw [decDigits_zero] at hc
      simp at hc
    · rw [decDigits_succ (Nat.pos_iff_ne_zero.mp hn)] at hc
      rcases List.mem_append.mp hc with h | h
      · exact ih (n / 10) (Nat.div_lt_self hn (by decide)) c h
      · simp only [List.mem_singleton] at h
        subst h
        exact digitChar_fix _ (Nat.mod_lt _ (by decide))

theorem decRepr_chars : ∀ n : Nat, ∀ c ∈ decRepr n,
    Char.toLower c = c ∧ c.isWhitespace = false := by
  intro n c hc
  unfold decRepr at hc
  by_cases hn : n = 0
  · simp [hn] at hc
    subst hc
    decide
  · simp [hn] at hc
    exact decDigits_chars n c hc

theorem decRepr_ne_nil (n : Nat) : decRepr n ≠ [] := by
  unfold decRepr
  by_cases hn : n = 0 <;> simp [hn]
  exact fun h => hn (decDigits_eq_nil_iff.mp h)

theorem lengthKey_inj {m n : Nat} (h : lengthKey m = lengthKey n) : m = n := by
  unfold lengthKey at h
  have hd : "length_".data ++ decRepr m = "length_".data ++ decRepr n :=
    congrArg String.data h
  exact decRepr_inj m n (List.append_cancel_left hd)

theorem letterKey_inj {a b : Char} (h : letterKey a = letterKey b) : a = b := by
  unfold letterKey at h
  have hd : "letter_".data ++ [a] = "letter_".data ++ [b] := congrArg String.data h
  have := List.append_cancel_left hd
  simpa using this

theorem lengthKey_ne_letterKey (n : Nat) (c : Char) : lengthKey n ≠ letterKey c := by
  intro h
  have hd : "length_".data ++ decRepr n = "letter_".data ++ [c] := congrArg String.data h
  have hpre : "length_".data = "letter_".data :=
    (List.append_inj hd (by decide)).1
  simp at hpre

theorem ne_lengthKey {s : String} (h : ¬ ("length_".data <+: s.data)) (n : Nat) :
    s ≠ lengthKey n := by
  intro hEq
  apply h
  rw [hEq]
  exact ⟨decRepr n, rfl⟩

theorem ne_letterKey {s : String} (h : ¬ ("letter_".data <+: s.data)) (c : Char) :
    s ≠ letterKey c := by
  intro hEq
  apply h
  rw [hEq]
  exact ⟨[c], rfl⟩

/-! Store construction: characterisation of the built `ROOT_DATABASE`. -/

/-- well-formedness of one loaded entry — the data-model assumptions of the
specification (`english` is a lowercase, trimmed, nonempty key) plus
non-collision with the secondary-index key namespace. -/
def goodEntry (e : Entry) : Prop :=
  jsLower e.english = e.english ∧ jsTrim e.english = e.english ∧ e.english ≠ "" ∧
  ¬ ("length_".data <+: e.english.data) ∧ ¬ ("letter_".data <+: e.english.data)

instance (e : Entry) : Decidable (goodEntry e) := by
  unfold goodEntry
  infer_instance

/-- well-formedness of the loaded word list: every entry well formed and
the `english` keys pairwise distinct. -/
def wfDB (l : List Entry) : Prop :=
  (∀ e ∈ l, goodEntry e) ∧ (l.map Entry.english).Nodup

instance (l : List Entry) : Decidable (wfDB l) := by
  unfold wfDB
  infer_instance

/-- the entries of a given english-key length, in insertion order. -/
def entriesOfLen (l : List Entry) (n : Nat) : List Entry :=
  l.filter (fun e => decide (sLen e.english = n))

/-- the entries with a given first character, in insertion order. -/
def entriesOfLetter (l : List Entry) (c : Char) : List Entry :=
  l.filter (fun e => decide (e.english.data.head? = some c))

/-- a bucket value as stored: absent when no entry has been pushed yet. -/
def olist (l : List Entry) : Option RootVal :=
  if l = [] then none else some (.bucket l)

/-- the shape of the store after inserting a list of entries: direct keys
hold their (unique) entry, length and letter keys hold the corresponding
buckets in insertion order, and every other key is absent. -/
def StoreInv (done : List Entry) (m : DB) : Prop :=
  (∀ e ∈ done, m e.english = some (.entry e)) ∧
  (∀ n, m (lengthKey n) = olist (entriesOfLen done n)) ∧
  (∀ c, m (letterKey c) = olist (entriesOfLetter done c)) ∧
  (∀ k, (∀ e ∈ done, e.english ≠ k) → (∀ n, k ≠ lengthKey n) → (∀ c, k ≠ letterKey c) →
    m k = none)

theorem setK_same (m : DB) (k : String) (v : RootVal) : setK m k v k = some v := by
  simp [setK]

theorem setK_other (m : DB) (k : String) (v : RootVal) {s : String} (h : s ≠ k) :
    setK m k v s = m s := by
  simp [setK, h]

theorem pushK_olist {m : DB} {k : String} {l0 : List Entry} (h : m k = olist l0)
    (e : Entry) : pushK m k e = some (setK m k (.bucket (l0 ++ [e]))) := by
  unfold pushK
  rw [h]
  unfold olist
  by_cases h0 : l0 = []
  · subst h0
    simp
  · simp [h0]

theorem insertWord_ok {done : List Entry} {m : DB} {e : Entry}
    (hg : goodEntry e) (hgdone : ∀ e2 ∈ done, goodEntry e2)
    (hnotin : ∀ e2 ∈ done, e2.english ≠ e.english)
    (hinv : StoreInv done m) :
    ∃ m3, insertWord m e = some m3 ∧ StoreInv (done ++ [e]) m3 := by
  obtain ⟨hlow, htrim, hne, hnl, hnlet⟩ := hg
  obtain ⟨hc0, hdata⟩ : ∃ c0, e.english.data.head? = some c0 := by
    cases hh : e.english.data with
    | nil =>
      exfalso
      exact hne (String.ext (by rw [hh]))
    | cons a t => simp [hh]
  set L := sLen e.english with hL
  set m1 := setK m e.english (.entry e) with hm1
  have hLkey : ∀ n, e.english ≠ lengthKey n := fun n => ne_lengthKey hnl n
  have hCkey : ∀ c, e.english ≠ letterKey c := fun c => ne_letterKey hnlet c
  have hm1len : ∀ n, m1 (lengthKey n) = olist (entriesOfLen done n) := by
    intro n
    rw [hm1, setK_other _ _ _ (fun hEq => hLkey n hEq.symm)]
    exact hinv.2.1 n
  set m2 := setK m1 (lengthKey L) (.bucket (entriesOfLen done L ++ [e])) with hm2
  have hpush1 : pushK m1 (lengthKey L) e = some m2 := pushK_olist (hm1len L) e
  have hm2let : ∀ c, m2 (letterKey c) = olist (entriesOfLetter done c) := by
    intro c
    rw [hm2, setK_other _ _ _ (lengthKey_ne_letterKey L c).symm, hm1,
      setK_other _ _ _ (fun hEq => hCkey c hEq.symm)]
    exact hinv.2.2.1 c
  set m3 := setK m2 (letterKey hc0) (.bucket (entriesOfLetter done hc0 ++ [e])) with hm3
  have hpush2 : pushK m2 (letterKey hc0) e = some m3 := pushK_olist (hm2let hc0) e
  refine ⟨m3, ?_, ?_, ?_, ?_, ?_⟩
  · show insertWord m e = some m3
    simp only [insertWord, hlow]
    rw [← hL, ← hm1, hpush1]
    simp only [letterKeyOf, hdata]
    exact hpush2
  · -- direct keys
    intro e2 he2
    rcases List.mem_append.mp he2 with h2 | h2
    · have hg2 := hgdone e2 h2
      rw [hm3, setK_other _ _ _ (ne_letterKey hg2.2.2.2.2 hc0), hm2,
        setK_other _ _ _ (ne_lengthKey hg2.2.2.2.1 L), hm1,
        setK_other _ _ _ (hnotin e2 h2)]
      exact hinv.1 e2 h2
    · simp only [List.mem_singleton] at h2
      subst h2
      rw [hm3, setK_other _ _ _ (hCkey hc0), hm2, setK_other _ _ _ (hLkey L), hm1,
        setK_same]
  · -- length keys
    intro n
    have hfil : entriesOfLen (done ++ [e]) n =
        entriesOfLen done n ++ if sLen e.english = n then [e] else [] := by
      unfold entriesOfLen
      rw [List.filter_append]
      by_cases hn : sLen e.english = n <;> simp [hn]
    by_cases hn : n = L
    · subst hn
      rw [hm3, setK_other _ _ _ (lengthKey_ne_letterKey L hc0), hm2, setK_same, hfil]
      rw [if_pos hL.symm]
      unfold olist
      simp
    · have : lengthKey n ≠ lengthKey L := fun hEq => hn (lengthKey_inj hEq)
      rw [hm3, setK_other _ _ _ (lengthKey_ne_letterKey n hc0), hm2, setK_other _ _ _ this,
        hm1, setK_other _ _ _ (fun hEq => hLkey n hEq.symm), hfil]
      rw [if_neg (fun hEq => hn (hL.trans hEq).symm)]
      simp only [List.append_nil]
      exact hinv.2.1 n
  · -- letter keys
    intro c
    have hfil : entriesOfLetter (done ++ [e]) c =
        entriesOfLetter done c ++ if e.english.data.head? = some c then [e] else [] := by
      unfold entriesOfLetter
      rw [List.filter_append]
      by_cases hcc : e.english.data.head? = some c <;> simp [hcc]
    by_cases hcEq : c = hc0
    · subst hcEq
      rw [hm3, setK_same, hfil, if_pos hdata]
      unfold olist
      simp
    · have : letterKey c ≠ letterKey hc0 := fun hEq => hcEq (letterKey_inj hEq)
      rw [hm3, setK_other _ _ _ this, hm2,
        setK_other _ _ _ (lengthKey_ne_letterKey L c).symm, hm1,
        setK_other _ _ _ (fun hEq => hCkey c hEq.symm), hfil]
      rw [if_neg (fun hEq => hcEq (Option.some.injEq _ _ ▸ (hdata.symm.trans hEq : some hc0 = some c)).symm)]
      simp only [List.append_nil]
      exact hinv.2.2.1 c
  · -- all other keys
    intro k hkdir hklen hklet
    have hkdir' : ∀ e2 ∈ done, e2.english ≠ k := fun e2 h2 => hkdir e2 (List.mem_append_left _ h2)
    have hke : e.english ≠ k := hkdir e (List.mem_append_right _ (List.mem_singleton.mpr rfl))
    rw [hm3, setK_other _ _ _ (hklet hc0), hm2, setK_other _ _ _ (hklen L), hm1,
      setK_other _ _ _ (fun hEq => hke hEq.symm)]
    exact hinv.2.2.2 k hkdir' hklen hklet

theorem buildFrom_ok : ∀ (todo done : List Entry) (m : DB),
    (∀ e ∈ done ++ todo, goodEntry e) → ((done ++ todo).map Entry.english).Nodup →
    StoreInv done m →
    ∃ m2, buildFrom m todo = some m2 ∧ StoreInv (done ++ todo) m2 := by
  intro todo
  induction todo with
  | nil =>
    intro done m hg _ hinv
    exact ⟨m, rfl, by simpa using hinv⟩
  | cons e t ih =>
    intro done m hg hnd hinv
    have hge : goodEntry e := hg e (List.mem_append_right _ (List.mem_cons_self e t))
    have hgdone : ∀ e2 ∈ done, goodEntry e2 := fun e2 h2 =>
      hg e2 (List.mem_append_left _ h2)
    have hnotin : ∀ e2 ∈ done, e2.english ≠ e.english := by
      intro e2 h2 hEq
      rw [List.map_append, List.nodup_append] at hnd
      exact hnd.2.2 (List.mem_map_of_mem _ h2)
        (by simpa using Or.inl hEq)
    obtain ⟨m3, hstep, hinv3⟩ := insertWord_ok hge hgdone hnotin hinv
    have hassoc : done ++ e :: t = (done ++ [e]) ++ t := by simp
    obtain ⟨m2, hrest, hinv2⟩ := ih (done ++ [e]) m3
      (by rw [← hassoc]; exact hg) (by rw [← hassoc]; exact hnd) hinv3
    refine ⟨m2, ?_, by rw [hassoc]; exact hinv2⟩
    unfold buildFrom
    rw [hstep]
    exact hrest

theorem storeInv_nil : StoreInv [] emptyDB := by
  refine ⟨by simp, ?_, ?_, fun _ _ _ _ => rfl⟩
  · intro n
    simp [entriesOfLen, olist, emptyDB]
  · intro c
    simp [entriesOfLetter, olist, emptyDB]

theorem buildDB_ok (l : List Entry) (hwf : wfDB l) :
    ∃ m, buildDB l = some m ∧ StoreInv l m := by
  have := buildFrom_ok l [] emptyDB (by simpa using hwf.1) (by simpa using hwf.2)
    storeInv_nil
  simpa [buildDB] using this

/-! Unfolding lemmas for the cascade and the analysis record. -/

@[simp] theorem analyzeCore_original (m : DB) (w : String) (t : Nat) :
    (analyzeCore m w t).original = w := rfl

@[simp] theorem analyzeCore_normalized (m : DB) (w : String) (t : Nat) :
    (analyzeCore m w t).normalized = normalize w := rfl

@[simp] theorem analyzeCore_found (m : DB) (w : String) (t : Nat) :
    (analyzeCore m w t).found = (runCascade m (normalize w)).found := rfl

@[simp] theorem analyzeCore_confidence (m : DB) (w : String) (t : Nat) :
    (analyzeCore m w t).confidence = (runCascade m (normalize w)).confidence := rfl

@[simp] theorem analyzeCore_matchType (m : DB) (w : String) (t : Nat) :
    (analyzeCore m w t).matchType = (runCascade m (normalize w)).matchType := rfl

@[simp] theorem analyzeCore_result (m : DB) (w : String) (t : Nat) :
    (analyzeCore m w t).result = (runCascade m (normalize w)).result := rfl

@[simp] theorem analyzeCore_decomposition (m : DB) (w : String) (t : Nat) :
    (analyzeCore m w t).decomposition = (runCascade m (normalize w)).decomposition := rfl

@[simp] theorem analyzeCore_suggestions (m : DB) (w : String) (t : Nat) :
    (analyzeCore m w t).suggestions = (runCascade m (normalize w)).suggestions := rfl

@[simp] theorem analyzeCore_timestamp (m : DB) (w : String) (t : Nat) :
    (analyzeCore m w t).timestamp = t := rfl

theorem runCascade_direct {m : DB} {lw : String} {dm : RootVal}
    (h : directMatch m lw = some dm) :
    runCascade m lw =
      { notFoundOut with found := true, confidence := 1, matchType := "direct",
                         result := some (rvToRes dm) } := by
  unfold runCascade
  rw [h]

theorem runCascade_inflection {m : DB} {lw : String} {im : InflOut}
    (h1 : directMatch m lw = none) (h2 : matchInflections m lw = some im) :
    runCascade m lw =
      { notFoundOut with found := true, confidence := mkRat 95 100, matchType := "inflection",
                         result := some (rvToRes im.result),
                         decomposition := im.decomposition } := by
  unfold runCascade
  rw [h1, h2]

theorem runCascade_affix {m : DB} {lw : String} {am : AffixOut}
    (h1 : directMatch m lw = none) (h2 : matchInflections m lw = none)
    (h3 : matchWithAffixes m lw = some am) :
    runCascade m lw =
      { notFoundOut with found := true, confidence := am.confidence,
                         matchType := am.type, result := some am.result,
                         decomposition := am.decomposition } := by
  unfold runCascade
  rw [h1, h2, h3]

theorem runCascade_similar {m : DB} {lw : String} {sm : SimOut}
    (h1 : directMatch m lw = none) (h2 : matchInflections m lw = none)
    (h3 : matchWithAffixes m lw = none) (h4 : findSimilarWords m lw = some sm) :
    runCascade m lw =
      { notFoundOut with found := true, confidence := sm.confidence,
                         matchType := "similar", result := some (.entryV sm.result),
                         suggestions := sm.suggestions } := by
  unfold runCascade
  rw [h1, h2, h3, h4]

theorem runCascade_compound {m : DB} {lw : String} {cm : CompOut}
    (h1 : directMatch m lw = none) (h2 : matchInflections m lw = none)
    (h3 : matchWithAffixes m lw = none) (h4 : findSimilarWords m lw = none)
    (h5 : analyzeCompoundWord m lw = some cm) :
    runCascade m lw =
      { notFoundOut with found := true, confidence := cm.confidence,
                         matchType := "compound", result := some (.compoundV cm.result),
                         decomposition := cm.decomposition } := by
  unfold runCascade
  rw [h1, h2, h3, h4, h5]

theorem runCascade_none {m : DB} {lw : String}
    (h1 : directMatch m lw = none) (h2 : matchInflections m lw = none)
    (h3 : matchWithAffixes m lw = none) (h4 : findSimilarWords m lw = none)
    (h5 : analyzeCompoundWord m lw = none) :
    runCascade m lw = notFoundOut := by
  unfold runCascade
  rw [h1, h2, h3, h4, h5]

/-! Shape lemmas for the individual strategies. -/

theorem tryAffixPre_shape {m : DB} {w p : String} {a : AffixOut}
    (h : tryAffixPre m w p = some a) : a.type = "prefixed" ∧ a.confidence = mkRat 85 100 := by
  unfold tryAffixPre at h
  split at h
  · simp only [] at h
    split at h
    · simp only [Option.some.injEq] at h
      subst h
      exact ⟨rfl, rfl⟩
    · exact absurd h (by simp)
  · exact absurd h (by simp)

theorem tryAffixSuf_shape {m : DB} {w s : String} {a : AffixOut}
    (h : tryAffixSuf m w s = some a) : a.type = "suffixed" ∧ a.confidence = mkRat 80 100 := by
  unfold tryAffixSuf at h
  split at h
  · simp only [] at h
    split at h
    · simp only [Option.some.injEq] at h
      subst h
      exact ⟨rfl, rfl⟩
    · exact absurd h (by simp)
  · exact absurd h (by simp)

theorem matchWithAffixes_shape {m : DB} {w : String} {a : AffixOut}
    (h : matchWithAffixes m w = some a) :
    (a.type = "prefixed" ∧ a.confidence = mkRat 85 100) ∨
      (a.type = "suffixed" ∧ a.confidence = mkRat 80 100) := by
  unfold matchWithAffixes at h
  cases hp : morphemePrefixes.findSome? (tryAffixPre m w) with
  | some a2 =>
    rw [hp] at h
    simp only [Option.some.injEq] at h
    subst h
    obtain ⟨p, _, hpp⟩ := List.exists_of_findSome?_eq_some hp
    exact Or.inl (tryAffixPre_shape hpp)
  | none =>
    rw [hp] at h
    obtain ⟨s, _, hss⟩ := List.exists_of_findSome?_eq_some h
    exact Or.inr (tryAffixSuf_shape hss)

theorem mem_fuzzyCandidates_sim {m : DB} {w : String} {p : Entry × ℚ}
    (hp : p ∈ fuzzyCandidates m w) :
    mkRat 7 10 ≤ p.2 ∧ p.2 = calculateSimilarity w (jsLower p.1.english) := by
  unfold fuzzyCandidates at hp
  obtain ⟨len, _, hmem⟩ := List.mem_flatMap.mp hp
  obtain ⟨c, _, hc⟩ := List.mem_filterMap.mp hmem
  unfold candOf at hc
  by_cases hth : mkRat 7 10 ≤ calculateSimilarity w (jsLower c.english)
  · rw [if_pos hth] at hc
    simp only [Option.some.injEq] at hc
    subst hc
    exact ⟨hth, rfl⟩
  · rw [if_neg hth] at hc
    exact absurd hc (by simp)

theorem findSimilarWords_conf {m : DB} {w : String} {sm : SimOut}
    (h : findSimilarWords m w = some sm) :
    mkRat 7 10 ≤ sm.confidence ∧
      (sm.result, sm.confidence) ∈ fuzzyCandidates m w := by
  unfold findSimilarWords at h
  cases hms : (fuzzyCandidates m w).insertionSort simGE with
  | nil => rw [hms] at h; exact absurd h (by simp)
  | cons top rest =>
    rw [hms] at h
    simp only [Option.some.injEq] at h
    subst h
    have htop : top ∈ fuzzyCandidates m w := by
      rw [← List.mem_insertionSort (r := simGE), hms]
      exact List.mem_cons_self _ _
    exact ⟨(mem_fuzzyCandidates_sim htop).1, htop⟩

theorem tryPattern_shape {m : DB} {w : String} {p : Pat} {cm : CompOut}
    (h : tryPattern m w p = some cm) :
    cm.confidence = mkRat 3 4 ∧ cm.result.category = "Compound" := by
  unfold tryPattern at h
  split at h
  · exact absurd h (by simp)
  · simp only [] at h
    split at h
    · split at h
      · split at h
        · simp only [Option.some.injEq] at h
          subst h
          exact ⟨rfl, rfl⟩
        · exact absurd h (by simp)
      · exact absurd h (by simp)
    · exact absurd h (by simp)

theorem analyzeCompoundWord_shape {m : DB} {w : String} {cm : CompOut}
    (h : analyzeCompoundWord m w = some cm) :
    cm.confidence = mkRat 3 4 ∧ cm.result.category = "Compound" := by
  unfold analyzeCompoundWord at h
  by_cases hlen : sLen w < 6
  · rw [if_pos hlen] at h
    exact absurd h (by simp)
  · rw [if_neg hlen] at h
    obtain ⟨p, _, hpp⟩ := List.exists_of_findSome?_eq_some h
    exact tryPattern_shape hpp

/-! Concrete stores used by witnesses and counterexamples. -/

/-- a one-entry demonstration store: `cat` → 猫. -/
def catE : Entry :=
  { english := "cat", chinese := "猫", pinyin := "mao", category := "Nature/Existence",
    priority := 1 }

def demoStore : List Entry := [catE]

def dbCat : DB := (buildDB demoStore).getD emptyDB

/-! C1. -/

/-- C1: for every entry `E` of a well-formed Lexicon Store, resolving
`E.english` returns a direct hit: `found = true`, match kind `direct`,
confidence exactly 1, and the matched value is `E` itself — in particular
its `chinese` field equals `E.chinese`. -/
theorem c1_direct_roundtrip {l : List Entry} {m : DB} {E : Entry} (t : Nat)
    (hwf : wfDB l) (hbuild : buildDB l = some m) (hE : E ∈ l) :
    (analyzeCore m E.english t).found = true ∧
    (analyzeCore m E.english t).matchType = "direct" ∧
    (analyzeCore m E.english t).confidence = 1 ∧
    (analyzeCore m E.english t).result = some (.entryV E) := by
  obtain ⟨m2, hb2, hinv⟩ := buildDB_ok l hwf
  rw [hbuild] at hb2
  simp only [Option.some.injEq] at hb2
  subst hb2
  have hg := hwf.1 E hE
  have hnorm : normalize E.english = E.english := by
    unfold normalize
    rw [hg.1, hg.2.1]
  have hdm : directMatch m E.english = some (.entry E) := hinv.1 E hE
  simp only [analyzeCore_found, analyzeCore_matchType, analyzeCore_confidence,
    analyzeCore_result, hnorm, runCascade_direct hdm]
  simp [rvToRes]

/-- witness for C1 on the concrete one-entry store. -/
theorem c1_direct_roundtrip_witness :
    (wfDB demoStore ∧ buildDB demoStore = some dbCat ∧ catE ∈ demoStore) ∧
    ((analyzeCore dbCat catE.english 0).found = true ∧
     (analyzeCore dbCat catE.english 0).matchType = "direct" ∧
     (analyzeCore dbCat catE.english 0).confidence = 1 ∧
     (analyzeCore dbCat catE.english 0).result = some (.entryV catE)) :=
  ⟨⟨by decide, rfl, by decide⟩,
    @c1_direct_roundtrip demoStore dbCat catE 0 (by decide) rfl (by decide)⟩

/-! C2. -/

/-- C2: for every input word, the analysis result satisfies the invariant
that `found = true` implies a strictly positive confidence and a present
matched value, and that the not-found match kind (`not_found`) implies
`found = false`. -/
theorem c2_result_invariant (m : DB) (w : String) (t : Nat) :
    ((analyzeCore m w t).found = true →
      0 < (analyzeCore m w t).confidence ∧ (analyzeCore m w t).result ≠ none) ∧
    ((analyzeCore m w t).matchType = "not_found" → (analyzeCore m w t).found = false) := by
  simp only [analyzeCore_found, analyzeCore_confidence, analyzeCore_matchType,
    analyzeCore_result]
  cases h1 : directMatch m (normalize w) with
  | some dm =>
    rw [runCascade_direct h1]
    refine ⟨fun _ => ⟨by norm_num, by simp⟩, fun hmt => ?_⟩
    exact absurd hmt (by simp)
  | none =>
  cases h2 : matchInflections m (normalize w) with
  | some im =>
    rw [runCascade_inflection h1 h2]
    refine ⟨fun _ => ⟨by norm_num, by simp⟩, fun hmt => ?_⟩
    exact absurd hmt (by simp)
  | none =>
  cases h3 : matchWithAffixes m (normalize w) with
  | some am =>
    rw [runCascade_affix h1 h2 h3]
    refine ⟨fun _ => ⟨?_, by simp⟩, fun hmt => ?_⟩
    · rcases matchWithAffixes_shape h3 with ⟨_, hc⟩ | ⟨_, hc⟩ <;> rw [hc] <;> norm_num
    · rcases matchWithAffixes_shape h3 with ⟨ht, _⟩ | ⟨ht, _⟩ <;>
        simp only [ht] at hmt <;> exact absurd hmt (by simp)
  | none =>
  cases h4 : findSimilarWords m (normalize w) with
  | some sm =>
    rw [runCascade_similar h1 h2 h3 h4]
    refine ⟨fun _ => ⟨?_, by simp⟩, fun hmt => ?_⟩
    · have := (findSimilarWords_conf h4).1
      calc (0 : ℚ) < mkRat 7 10 := by norm_num
        _ ≤ sm.confidence := this
    · exact absurd hmt (by simp)
  | none =>
  cases h5 : analyzeCompoundWord m (normalize w) with
  | some cm =>
    rw [runCascade_compound h1 h2 h3 h4 h5]
    refine ⟨fun _ => ⟨?_, by simp⟩, fun hmt => ?_⟩
    · rw [(analyzeCompoundWord_shape h5).1]
      norm_num
    · exact absurd hmt (by simp)
  | none =>
    rw [runCascade_none h1 h2 h3 h4 h5]
    exact ⟨fun hf => absurd hf (by simp [notFoundOut]), fun _ => rfl⟩

/-- witness for C2: the invariant instantiated at a found word and at a
not-found word of the concrete store. -/
theorem c2_result_invariant_witness :
    ((analyzeCore dbCat "cat" 0).found = true →
      0 < (analyzeCore dbCat "cat" 0).confidence ∧
      (analyzeCore dbCat "cat" 0).result ≠ none) ∧
    ((analyzeCore dbCat "zzz" 0).matchType = "not_found" →
      (analyzeCore dbCat "zzz" 0).found = false) :=
  ⟨(c2_result_invariant dbCat "cat" 0).1, (c2_result_invariant dbCat "zzz" 0).2⟩

/-! C8: decomposition parts reassemble the normalised word. -/

/-- concatenation of the decomposition part texts, in order. -/
def concatParts (ds : List Decomp) : String :=
  ⟨(ds.map (fun d => d.part.data)).flatten⟩

theorem dropSuffix_append (lw t : String) (hsuf : t.data <:+ lw.data) :
    (dropSuffixN lw (sLen t)).data ++ t.data = lw.data := by
  obtain ⟨pre, hpre⟩ := hsuf
  have h1 : (dropSuffixN lw (sLen t)).data = pre := by
    show lw.data.take (lw.data.length - sLen t) = pre
    rw [← hpre]
    apply List.take_left'
    simp only [List.length_append, sLen]
    omega
  rw [h1, hpre]

theorem dropPre_append (lw p : String) (hp : p.data <+: lw.data) :
    p.data ++ (dropPrefixN lw (sLen p)).data = lw.data := by
  obtain ⟨post, hpost⟩ := hp
  have h1 : (dropPrefixN lw (sLen p)).data = post := by
    show lw.data.drop (sLen p) = post
    rw [← hpost]
    apply List.drop_left'
    simp [sLen]
  rw [h1, hpost]

theorem matchInflections_decomp {m : DB} {lw : String} {im : InflOut}
    (h : matchInflections m lw = some im) : concatParts im.decomposition = lw := by
  obtain ⟨infl, _, hi⟩ := List.exists_of_findSome?_eq_some h
  unfold tryInflection at hi
  by_cases hsuf : infl.data <:+ lw.data
  · rw [if_pos hsuf] at hi
    simp only [] at hi
    split at hi
    · simp only [Option.some.injEq] at hi
      subst hi
      apply String.ext
      show (dropSuffixN lw (sLen infl)).data ++ (infl.data ++ []) = lw.data
      rw [List.append_nil]
      exact dropSuffix_append lw infl hsuf
    · exact absurd hi (by simp)
  · rw [if_neg hsuf] at hi
    exact absurd hi (by simp)

theorem matchWithAffixes_decomp {m : DB} {lw : String} {a : AffixOut}
    (h : matchWithAffixes m lw = some a) : concatParts a.decomposition = lw := by
  unfold matchWithAffixes at h
  cases hp : morphemePrefixes.findSome? (tryAffixPre m lw) with
  | some a2 =>
    rw [hp] at h
    simp only [Option.some.injEq] at h
    subst h
    obtain ⟨p, _, hpp⟩ := List.exists_of_findSome?_eq_some hp
    unfold tryAffixPre at hpp
    by_cases hc : p.data <+: lw.data ∧ sLen p + 2 < sLen lw
    · rw [if_pos hc] at hpp
      simp only [] at hpp
      split at hpp
      · simp only [Option.some.injEq] at hpp
        subst hpp
        apply String.ext
        show p.data ++ ((dropPrefixN lw (sLen p)).data ++ []) = lw.data
        rw [List.append_nil]
        exact dropPre_append lw p hc.1
      · exact absurd hpp (by simp)
    · rw [if_neg hc] at hpp
      exact absurd hpp (by simp)
  | none =>
    rw [hp] at h
    obtain ⟨s, _, hss⟩ := List.exists_of_findSome?_eq_some h
    unfold tryAffixSuf at hss
    by_cases hc : s.data <:+ lw.data ∧ sLen s + 2 < sLen lw
    · rw [if_pos hc] at hss
      simp only [] at hss
      split at hss
      · simp only [Option.some.injEq] at hss
        subst hss
        apply String.ext
        show (dropSuffixN lw (sLen s)).data ++ (s.data ++ []) = lw.data
        rw [List.append_nil]
        exact dropSuffix_append lw s hc.1
      · exact absurd hss (by simp)
    · rw [if_neg hc] at hss
      exact absurd hss (by simp)

/-- C8: whenever the result's match kind is `inflection`, `prefixed` or
`suffixed`, concatenating the decomposition part texts in order reproduces
the normalised input word exactly. -/
theorem c8_decomposition_concat (m : DB) (w : String) (t : Nat)
    (h : (analyzeCore m w t).matchType = "inflection" ∨
         (analyzeCore m w t).matchType = "prefixed" ∨
         (analyzeCore m w t).matchType = "suffixed") :
    concatParts (analyzeCore m w t).decomposition = (analyzeCore m w t).normalized := by
  simp only [analyzeCore_matchType, analyzeCore_decomposition,
    analyzeCore_normalized] at h ⊢
  cases h1 : directMatch m (normalize w) with
  | some dm =>
    rw [runCascade_direct h1] at h
    rcases h with h | h | h <;> exact absurd h (by simp)
  | none =>
  cases h2 : matchInflections m (normalize w) with
  | some im =>
    rw [runCascade_inflection h1 h2]
    exact matchInflections_decomp h2
  | none =>
  cases h3 : matchWithAffixes m (normalize w) with
  | some am =>
    rw [runCascade_affix h1 h2 h3]
    exact matchWithAffixes_decomp h3
  | none =>
  cases h4 : findSimilarWords m (normalize w) with
  | some sm =>
    rw [runCascade_similar h1 h2 h3 h4] at h
    rcases h with h | h | h <;> exact absurd h (by simp)
  | none =>
  cases h5 : analyzeCompoundWord m (normalize w) with
  | some cm =>
    rw [runCascade_compound h1 h2 h3 h4 h5] at h
    rcases h with h | h | h <;> exact absurd h (by simp)
  | none =>
    rw [runCascade_none h1 h2 h3 h4 h5] at h
    rcases h with h | h | h <;> exact absurd h (by simp [notFoundOut])

/-- witness for C8 on the concrete store: `cats` resolves by inflection and
its decomposition `cat` + `s` rebuilds `cats`. -/
theorem c8_decomposition_concat_witness :
    ((analyzeCore dbCat "cats" 0).matchType = "inflection" ∨
     (analyzeCore dbCat "cats" 0).matchType = "prefixed" ∨
     (analyzeCore dbCat "cats" 0).matchType = "suffixed") ∧
    concatParts (analyzeCore dbCat "cats" 0).decomposition =
      (analyzeCore dbCat "cats" 0).normalized :=
  ⟨Or.inl (by decide), c8_decomposition_concat dbCat "cats" 0 (Or.inl (by decide))⟩

/-! C9: determinism with respect to the normalised word. -/

theorem setCache_same (c : Cache) (k : String) (v : Analysis) :
    setCache c k v k = some v := by
  simp [setCache]

/-- C9 (amended): two resolutions whose raw inputs normalise to the same
word agree on every field of the result except the echoed raw input (and
the wall-clock timestamp); moreover a repeated `analyze` call through the
cache returns exactly the result and cache of the first call. -/
theorem c9_normalized_determinism (m : DB) (w1 w2 : String) (t1 t2 : Nat) (c : Cache)
    (hn : normalize w1 = normalize w2) :
    ((analyzeCore m w1 t1).found = (analyzeCore m w2 t2).found ∧
     (analyzeCore m w1 t1).confidence = (analyzeCore m w2 t2).confidence ∧
     (analyzeCore m w1 t1).matchType = (analyzeCore m w2 t2).matchType ∧
     (analyzeCore m w1 t1).result = (analyzeCore m w2 t2).result ∧
     (analyzeCore m w1 t1).decomposition = (analyzeCore m w2 t2).decomposition ∧
     (analyzeCore m w1 t1).suggestions = (analyzeCore m w2 t2).suggestions ∧
     (analyzeCore m w1 t1).normalized = (analyzeCore m w2 t2).normalized) ∧
    analyze m (analyze m c w1 t1).2 w2 t2 = ((analyze m c w1 t1).1, (analyze m c w1 t1).2) := by
  constructor
  · simp only [analyzeCore_found, analyzeCore_confidence, analyzeCore_matchType,
      analyzeCore_result, analyzeCore_decomposition, analyzeCore_suggestions,
      analyzeCore_normalized, hn]
    simp
  · unfold analyze
    simp only []
    rw [← hn]
    cases hc : c (normalize w1) with
    | some a => simp [hc]
    | none => simp [hc, setCache_same]

/-- witness for C9: the raw inputs `Cat` and `cat` on the concrete store. -/
theorem c9_normalized_determinism_witness :
    normalize "Cat" = normalize "cat" ∧
    (((analyzeCore dbCat "Cat" 0).found = (analyzeCore dbCat "cat" 5).found ∧
      (analyzeCore dbCat "Cat" 0).confidence = (analyzeCore dbCat "cat" 5).confidence ∧
      (analyzeCore dbCat "Cat" 0).matchType = (analyzeCore dbCat "cat" 5).matchType ∧
      (analyzeCore dbCat "Cat" 0).result = (analyzeCore dbCat "cat" 5).result ∧
      (analyzeCore dbCat "Cat" 0).decomposition = (analyzeCore dbCat "cat" 5).decomposition ∧
      (analyzeCore dbCat "Cat" 0).suggestions = (analyzeCore dbCat "cat" 5).suggestions ∧
      (analyzeCore dbCat "Cat" 0).normalized = (analyzeCore dbCat "cat" 5).normalized) ∧
     analyze dbCat (analyze dbCat (fun _ => none) "Cat" 0).2 "cat" 5 =
       ((analyze dbCat (fun _ => none) "Cat" 0).1,
        (analyze dbCat (fun _ => none) "Cat" 0).2)) :=
  ⟨by decide, c9_normalized_determinism dbCat "Cat" "cat" 0 5 (fun _ => none) (by decide)⟩

/-- counterexample to C9 as stated: on fresh engine instances, the raw
inputs `A` and `a` normalise to the same word but the returned analyses
differ in their `original` field, so the contents are not identical in
every field. -/
theorem c9_counterexample :
    normalize "A" = normalize "a" ∧
    (analyzeCore emptyDB "A" 0).original ≠ (analyzeCore emptyDB "a" 0).original := by
  exact ⟨by decide, by decide⟩

/-! C4: inflection ending priority order. -/

/-- demonstration entry `box` → 盒. -/
def boxE : Entry :=
  { english := "box", chinese := "盒", pinyin := "he", category := "Nature/Existence",
    priority := 1 }

/-- demonstration entry `boxe` (the s-stripped stem of `boxes`). -/
def boxeE : Entry :=
  { english := "boxe", chinese := "某", pinyin := "mou", category := "Nature/Existence",
    priority := 1 }

def boxStore : List Entry := [boxE, boxeE]

def dbBox : DB := (buildDB boxStore).getD emptyDB

/-- counterexample to C4 as stated: in the store {box, boxe} the word
`boxes` ends in `es`, both the es-stripped stem `box` and the s-stripped
stem `boxe` are entries, yet resolution matches the s-stripped stem `boxe`
and not the es-stripped stem `box`: the inflection list is tried in the
source order `s, es, ed, ing, er, est`, bare `s` first. -/
theorem c4_counterexample :
    wfDB boxStore ∧ buildDB boxStore = some dbBox ∧
    "es".data <:+ "boxes".data ∧
    dbBox "box" = some (.entry boxE) ∧ dbBox "boxe" = some (.entry boxeE) ∧
    (analyzeCore dbBox "boxes" 0).matchType = "inflection" ∧
    (analyzeCore dbBox "boxes" 0).result = some (.entryV boxeE) ∧
    (analyzeCore dbBox "boxes" 0).result ≠ some (.entryV boxE) :=
  ⟨by decide, rfl, by decide, by decide, by decide, by decide, by decide, by decide⟩

/-- C4 (amended): the inflection strategy tests endings in the fixed
source order `s, es, ed, ing, er, est`, so the bare `s` ending is
considered before `es`.  For every word ending in `es` whose direct lookup
fails and whose `s`-stripped and `es`-stripped stems are both store
entries, resolution matches the `s`-stripped stem (the first stem match
wins) with confidence 0.95. -/
theorem c4_inflection_order (m : DB) (w : String) (t : Nat) (e1 e2 : Entry)
    (hnorm : normalize w = w)
    (hes : "es".data <:+ w.data)
    (hdir : directMatch m w = none)
    (hs1 : directMatch m (dropSuffixN w 1) = some (.entry e1))
    (hs2 : directMatch m (dropSuffixN w 2) = some (.entry e2)) :
    (analyzeCore m w t).found = true ∧
    (analyzeCore m w t).matchType = "inflection" ∧
    (analyzeCore m w t).confidence = mkRat 95 100 ∧
    (analyzeCore m w t).result = some (.entryV e1) := by
  have hsuf_s : "s".data <:+ w.data := by
    obtain ⟨pre, hpre⟩ := hes
    refine ⟨pre ++ ['e'], ?_⟩
    rw [List.append_assoc]
    exact hpre
  have hTry : tryInflection m w "s" = some
      { result := .entry e1,
        decomposition :=
          [ { part := dropSuffixN w 1, type := "base", chinese := some e1.chinese },
            { part := "s", type := "inflection",
              chinese := some (getInflectionMeaning "s") } ] } := by
    unfold tryInflection
    rw [if_pos hsuf_s]
    simp only []
    rw [show sLen "s" = 1 from rfl, hs1]
    rfl
  have hinfl : matchInflections m w = some
      { result := .entry e1,
        decomposition :=
          [ { part := dropSuffixN w 1, type := "base", chinese := some e1.chinese },
            { part := "s", type := "inflection",
              chinese := some (getInflectionMeaning "s") } ] } := by
    unfold matchInflections inflectionList
    rw [List.findSome?_cons, hTry]
  simp only [analyzeCore_found, analyzeCore_matchType, analyzeCore_confidence,
    analyzeCore_result, hnorm, runCascade_inflection hdir hinfl]
  simp [rvToRes]

/-- witness for the amended C4 at the concrete store {box, boxe} and the
word `boxes`. -/
theorem c4_inflection_order_witness :
    (normalize "boxes" = "boxes" ∧ "es".data <:+ "boxes".data ∧
     directMatch dbBox "boxes" = none ∧
     directMatch dbBox (dropSuffixN "boxes" 1) = some (.entry boxeE) ∧
     directMatch dbBox (dropSuffixN "boxes" 2) = some (.entry boxE)) ∧
    ((analyzeCore dbBox "boxes" 0).found = true ∧
     (analyzeCore dbBox "boxes" 0).matchType = "inflection" ∧
     (analyzeCore dbBox "boxes" 0).confidence = mkRat 95 100 ∧
     (analyzeCore dbBox "boxes" 0).result = some (.entryV boxeE)) :=
  ⟨⟨by decide, by decide, by decide, by decide, by decide⟩,
   c4_inflection_order dbBox "boxes" 0 boxeE boxE (by decide) (by decide) (by decide)
     (by decide) (by decide)⟩

/-! C10: the secondary-index keys live in the same namespace as words. -/

theorem map_toLower_fixed {l : List Char} (h : ∀ c ∈ l, Char.toLower c = c) :
    l.map Char.toLower = l := by
  induction l with
  | nil => rfl
  | cons a t ih =>
    simp only [List.map_cons, h a (List.mem_cons_self a t),
      ih (fun c hc => h c (List.mem_cons_of_mem a hc))]

theorem dropWhile_fixed {l : List Char} (h : ∀ c, l.head? = some c → isWs c = false) :
    l.dropWhile isWs = l := by
  cases l with
  | nil => rfl
  | cons a t =>
    have := h a rfl
    simp [List.dropWhile_cons, this]

theorem trimList_fixed {l : List Char}
    (h1 : ∀ c, l.head? = some c → isWs c = false)
    (h2 : ∀ c, l.getLast? = some c → isWs c = false) :
    trimList l = l := by
  unfold trimList
  rw [dropWhile_fixed h1]
  rw [dropWhile_fixed (fun c hc => h2 c (by rwa [List.head?_reverse] at hc))]
  exact List.reverse_reverse l

theorem lengthPrefix_chars :
    ∀ c ∈ "length_".data, Char.toLower c = c ∧ c.isWhitespace = false := by
  decide

theorem letterPrefix_chars :
    ∀ c ∈ "letter_".data, Char.toLower c = c ∧ c.isWhitespace = false := by
  decide

theorem head?_mem {α : Type} {l : List α} {a : α} (h : l.head? = some a) : a ∈ l := by
  cases l with
  | nil => simp at h
  | cons b t =>
    simp only [List.head?_cons, Option.some.injEq] at h
    subst h
    exact List.mem_cons_self _ _

theorem dropWhile_len_le (p : Char → Bool) (l : List Char) :
    (l.dropWhile p).length ≤ l.length :=
  (List.dropWhile_sublist p).length_le

theorem getLast?_mem_of_ne_nil {l : List Char} {c : Char} (h : l.getLast? = some c) :
    c ∈ l := by
  cases l with
  | nil => simp at h
  | cons a t =>
    have := List.getLast?_eq_getLast (a :: t) (by simp)
    rw [this] at h
    simp only [Option.some.injEq] at h
    subst h
    exact List.getLast_mem _

theorem lengthKey_normalize (n : Nat) : normalize (lengthKey n) = lengthKey n := by
  have hchars : ∀ c ∈ (lengthKey n).data, Char.toLower c = c ∧ c.isWhitespace = false := by
    intro c hc
    rcases List.mem_append.mp hc with h | h
    · exact lengthPrefix_chars c h
    · exact decRepr_chars n c h
  unfold normalize jsLower jsTrim
  rw [map_toLower_fixed (fun c hc => (hchars c hc).1)]
  show String.mk (trimList (lengthKey n).data) = lengthKey n
  rw [trimList_fixed ?h1 ?h2]
  case h1 =>
    intro c hc
    exact (hchars c (head?_mem hc)).2
  case h2 =>
    intro c hc
    exact (hchars c (getLast?_mem_of_ne_nil hc)).2

theorem letterKey_normalize {c : Char} (hlow : Char.toLower c = c)
    (hws : c.isWhitespace = false) : normalize (letterKey c) = letterKey c := by
  have hchars : ∀ a ∈ (letterKey c).data, Char.toLower a = a ∧ a.isWhitespace = false := by
    intro a ha
    rcases List.mem_append.mp ha with h | h
    · exact letterPrefix_chars a h
    · simp only [List.mem_singleton] at h
      subst h
      exact ⟨hlow, hws⟩
  unfold normalize jsLower jsTrim
  rw [map_toLower_fixed (fun a ha => (hchars a ha).1)]
  show String.mk (trimList (letterKey c).data) = letterKey c
  rw [trimList_fixed ?h1 ?h2]
  case h1 =>
    intro a ha
    exact (hchars a (head?_mem ha)).2
  case h2 =>
    intro a ha
    exact (hchars a (getLast?_mem_of_ne_nil ha)).2

theorem head_char_props {e : Entry} {c : Char} (hg : goodEntry e)
    (hd : e.english.data.head? = some c) :
    Char.toLower c = c ∧ c.isWhitespace = false := by
  obtain ⟨hlow, htrim, hne, h4, h5⟩ := hg
  cases hl : e.english.data with
  | nil => rw [hl] at hd; simp at hd
  | cons a t =>
    rw [hl] at hd
    simp only [List.head?_cons, Option.some.injEq] at hd
    subst hd
    constructor
    · have hdata : List.map Char.toLower e.english.data = e.english.data :=
        congrArg String.data hlow
      rw [hl] at hdata
      simp only [List.map_cons, List.cons.injEq] at hdata
      exact hdata.1
    · by_contra hws
      simp only [Bool.not_eq_false] at hws
      have hdata : trimList e.english.data = e.english.data := congrArg String.data htrim
      rw [hl] at hdata
      have hdrop : (a :: t).dropWhile isWs = t.dropWhile isWs := by
        simp [List.dropWhile_cons, isWs, hws]
      have hlen : (trimList (a :: t)).length ≤ t.length := by
        unfold trimList
        rw [hdrop]
        have e1 := dropWhile_len_le isWs (t.dropWhile isWs).reverse
        have e2 := dropWhile_len_le isWs t
        simp only [List.length_reverse] at e1 ⊢
        omega
      rw [hdata] at hlen
      simp at hlen

/-- C10 (implicit behaviour): the direct-lookup table shares one namespace
with the secondary indexes, so whenever at least one entry of length `n`
(resp. with first letter `c`) exists, analysing the input `length_<n>`
(resp. `letter_<c>`) returns `found = true`, match type `direct`,
confidence 1, and the matched value is the whole index bucket — an array of
entries, not a single lexicon entry. -/
theorem c10_index_namespace_leak {l : List Entry} {m : DB} (t : Nat) (n : Nat) (c : Char)
    (hwf : wfDB l) (hbuild : buildDB l = some m) :
    (entriesOfLen l n ≠ [] →
      (analyzeCore m (lengthKey n) t).found = true ∧
      (analyzeCore m (lengthKey n) t).matchType = "direct" ∧
      (analyzeCore m (lengthKey n) t).confidence = 1 ∧
      (analyzeCore m (lengthKey n) t).result = some (.bucketV (entriesOfLen l n))) ∧
    (entriesOfLetter l c ≠ [] →
      (analyzeCore m (letterKey c) t).found = true ∧
      (analyzeCore m (letterKey c) t).matchType = "direct" ∧
      (analyzeCore m (letterKey c) t).confidence = 1 ∧
      (analyzeCore m (letterKey c) t).result = some (.bucketV (entriesOfLetter l c))) := by
  obtain ⟨m2, hb2, hinv⟩ := buildDB_ok l hwf
  rw [hbuild] at hb2
  simp only [Option.some.injEq] at hb2
  subst hb2
  constructor
  · intro hne
    have hdm : directMatch m (lengthKey n) = some (.bucket (entriesOfLen l n)) := by
      show m (lengthKey n) = _
      rw [hinv.2.1 n]
      unfold olist
      rw [if_neg hne]
    simp only [analyzeCore_found, analyzeCore_matchType, analyzeCore_confidence,
      analyzeCore_result, lengthKey_normalize, runCascade_direct hdm]
    simp [rvToRes]
  · intro hne
    obtain ⟨e0, he0⟩ := List.exists_mem_of_ne_nil (entriesOfLetter l c) hne
    have he0l : e0 ∈ l ∧ e0.english.data.head? = some c := by
      have := List.mem_filter.mp he0
      exact ⟨this.1, of_decide_eq_true this.2⟩
    have hcp := head_char_props (hwf.1 e0 he0l.1) he0l.2
    have hdm : directMatch m (letterKey c) = some (.bucket (entriesOfLetter l c)) := by
      show m (letterKey c) = _
      rw [hinv.2.2.1 c]
      unfold olist
      rw [if_neg hne]
    simp only [analyzeCore_found, analyzeCore_matchType, analyzeCore_confidence,
      analyzeCore_result, letterKey_normalize hcp.1 hcp.2, runCascade_direct hdm]
    simp [rvToRes]

/-- witness for C10 on the concrete store: the inputs `length_3` and
`letter_c` both return the index bucket `[cat]` as a direct match. -/
theorem c10_index_namespace_leak_witness :
    (wfDB demoStore ∧ buildDB demoStore = some dbCat ∧
     entriesOfLen demoStore 3 ≠ [] ∧ entriesOfLetter demoStore 'c' ≠ []) ∧
    ((analyzeCore dbCat (lengthKey 3) 0).found = true ∧
     (analyzeCore dbCat (lengthKey 3) 0).matchType = "direct" ∧
     (analyzeCore dbCat (lengthKey 3) 0).confidence = 1 ∧
     (analyzeCore dbCat (lengthKey 3) 0).result =
       some (.bucketV (entriesOfLen demoStore 3))) ∧
    ((analyzeCore dbCat (letterKey 'c') 0).found = true ∧
     (analyzeCore dbCat (letterKey 'c') 0).matchType = "direct" ∧
     (analyzeCore dbCat (letterKey 'c') 0).confidence = 1 ∧
     (analyzeCore dbCat (letterKey 'c') 0).result =
       some (.bucketV (entriesOfLetter demoStore 'c'))) :=
  ⟨⟨by decide, rfl, by decide, by decide⟩,
   (@c10_index_namespace_leak demoStore dbCat 0 3 'c' (by decide) rfl).1 (by decide),
   (@c10_index_namespace_leak demoStore dbCat 0 3 'c' (by decide) rfl).2 (by decide)⟩

/-! C3: behaviour on empty (or whitespace-only) input. -/

theorem lengthKey_ne_empty (n : Nat) : ("" : String) ≠ lengthKey n := by
  intro h
  have := congrArg String.data h
  simp [lengthKey] at this

theorem letterKey_ne_empty (c : Char) : ("" : String) ≠ letterKey c := by
  intro h
  have := congrArg String.data h
  simp [letterKey] at this

theorem empty_key_absent {l : List Entry} {m : DB} (hwf : wfDB l)
    (hinv : StoreInv l m) : m "" = none := by
  apply hinv.2.2.2
  · intro e he hEq
    exact (hwf.1 e he).2.2.1 hEq
  · exact lengthKey_ne_empty
  · exact letterKey_ne_empty

theorem bucketAt_inv {l : List Entry} {m : DB} (hinv : StoreInv l m) (n : Nat) :
    bucketAt m n = entriesOfLen l n := by
  unfold bucketAt
  rw [hinv.2.1 n]
  unfold olist
  by_cases h0 : entriesOfLen l n = []
  · rw [if_pos h0, h0]
  · rw [if_neg h0]

theorem filterMap_all_some {α β : Type} (f : α → Option β) (g : α → β) (L : List α)
    (h : ∀ a ∈ L, f a = some (g a)) : L.filterMap f = L.map g := by
  induction L with
  | nil => rfl
  | cons a t ih =>
    rw [List.filterMap_cons, h a (List.mem_cons_self a t), List.map_cons,
      ih (fun b hb => h b (List.mem_cons_of_mem a hb))]

theorem insertionSort_eq_nil_iff (L : List (Entry × ℚ)) :
    L.insertionSort simGE = [] ↔ L = [] := by
  constructor
  · intro h
    have := List.length_insertionSort simGE L
    rw [h] at this
    exact List.eq_nil_of_length_eq_zero this.symm
  · intro h
    rw [h]
    rfl

theorem calculateSimilarity_empty_left {x : String} (hx : x ≠ "") :
    calculateSimilarity "" x = mkRat 9 10 := by
  unfold calculateSimilarity
  rw [if_neg (fun hEq => hx hEq.symm)]
  have h2 : includes x "" = true := by
    unfold includes
    exact decide_eq_true List.nil_infix
  rw [h2]
  simp

theorem fuzzyCandidates_of_empty_word {l : List Entry} {m : DB} (hwf : wfDB l)
    (hinv : StoreInv l m) :
    fuzzyCandidates m "" = (entriesOfLen l 3).map (fun e => (e, (mkRat 9 10 : ℚ))) := by
  have hshape : fuzzyCandidates m "" = (bucketAt m 3).filterMap (candOf "") := by
    unfold fuzzyCandidates fuzzyLo fuzzyHi
    show (List.range' 3 1).flatMap _ = _
    simp
  rw [hshape, bucketAt_inv hinv 3]
  apply filterMap_all_some
  intro e he
  have hel : e ∈ l ∧ sLen e.english = 3 := by
    have := List.mem_filter.mp he
    exact ⟨this.1, of_decide_eq_true this.2⟩
  have hglow := (hwf.1 e hel.1).1
  have hne : jsLower e.english ≠ "" := by
    rw [hglow]
    exact (hwf.1 e hel.1).2.2.1
  unfold candOf
  rw [calculateSimilarity_empty_left hne]
  rw [if_pos (by norm_num)]

/-- counterexample to C3 as stated: with the single three-letter entry
`cat` in the store, resolving the empty string does not return the
not-found state: the fuzzy strategy scans the `length_3` bucket (the
scanned window is `max(3, len-3) .. len+3`), every three-letter entry
contains the empty string as a substring (similarity 0.9 ≥ 0.7), and a
positive `similar` match with confidence 0.9 is returned. -/
theorem c3_counterexample :
    normalize "" = "" ∧ wfDB demoStore ∧ buildDB demoStore = some dbCat ∧
    (analyzeCore dbCat "" 0).found = true ∧
    (analyzeCore dbCat "" 0).confidence = mkRat 9 10 ∧
    (analyzeCore dbCat "" 0).matchType = "similar" :=
  ⟨rfl, by decide, rfl, by decide, by decide, by decide⟩

/-- C3 (amended): resolving an input that normalises to the empty string
never fails (the engine is a total function); it returns the defined
not-found result (`found = false`, confidence 0, match kind `not_found`)
exactly when the store has no entry of length 3, and otherwise returns a
positive fuzzy match with confidence 0.9. -/
theorem c3_empty_input {l : List Entry} {m : DB} (w : String) (t : Nat)
    (hwf : wfDB l) (hbuild : buildDB l = some m) (hn : normalize w = "") :
    (entriesOfLen l 3 = [] →
      (analyzeCore m w t).found = false ∧ (analyzeCore m w t).confidence = 0 ∧
      (analyzeCore m w t).matchType = "not_found") ∧
    (entriesOfLen l 3 ≠ [] →
      (analyzeCore m w t).found = true ∧ (analyzeCore m w t).confidence = mkRat 9 10 ∧
      (analyzeCore m w t).matchType = "similar") := by
  obtain ⟨m2, hb2, hinv⟩ := buildDB_ok l hwf
  rw [hbuild] at hb2
  simp only [Option.some.injEq] at hb2
  subst hb2
  have h1 : directMatch m "" = none := empty_key_absent hwf hinv
  have h2 : matchInflections m "" = none := rfl
  have h3 : matchWithAffixes m "" = none := rfl
  have h5 : analyzeCompoundWord m "" = none := rfl
  have hcands := fuzzyCandidates_of_empty_word hwf hinv
  constructor
  · intro hnil
    have h4 : findSimilarWords m "" = none := by
      unfold findSimilarWords
      rw [hcands, hnil]
      simp
    simp only [analyzeCore_found, analyzeCore_confidence, analyzeCore_matchType, hn,
      runCascade_none h1 h2 h3 h4 h5]
    exact ⟨rfl, rfl, rfl⟩
  · intro hne
    cases h4 : findSimilarWords m "" with
    | none =>
      exfalso
      unfold findSimilarWords at h4
      cases hms : (fuzzyCandidates m "").insertionSort simGE with
      | nil =>
        have := (insertionSort_eq_nil_iff (fuzzyCandidates m "")).mp hms
        rw [hcands] at this
        exact hne (List.map_eq_nil_iff.mp this)
      | cons top rest => rw [hms] at h4; simp at h4
    | some sm =>
      have hconf : sm.confidence = mkRat 9 10 := by
        have hmem := (findSimilarWords_conf h4).2
        rw [hcands] at hmem
        obtain ⟨e, _, heq⟩ := List.mem_map.mp hmem
        exact (congrArg Prod.snd heq).symm
      simp only [analyzeCore_found, analyzeCore_confidence, analyzeCore_matchType, hn,
        runCascade_similar h1 h2 h3 h4]
      exact ⟨trivial, hconf, trivial⟩

/-- witness for the amended C3: the whitespace-only input on the one-entry
store (positive fuzzy branch) and the empty input on the empty store
(not-found branch). -/
theorem c3_empty_input_witness :
    (wfDB demoStore ∧ buildDB demoStore = some dbCat ∧ normalize " " = "" ∧
     entriesOfLen demoStore 3 ≠ []) ∧
    ((analyzeCore dbCat " " 0).found = true ∧
     (analyzeCore dbCat " " 0).confidence = mkRat 9 10 ∧
     (analyzeCore dbCat " " 0).matchType = "similar") ∧
    (wfDB ([] : List Entry) ∧ buildDB [] = some emptyDB ∧
     entriesOfLen ([] : List Entry) 3 = []) ∧
    ((analyzeCore emptyDB "" 0).found = false ∧
     (analyzeCore emptyDB "" 0).confidence = 0 ∧
     (analyzeCore emptyDB "" 0).matchType = "not_found") :=
  ⟨⟨by decide, rfl, by decide, by decide⟩,
   (@c3_empty_input demoStore dbCat " " 0 (by decide) rfl (by decide)).2 (by decide),
   ⟨by decide, rfl, by decide⟩,
   (@c3_empty_input [] emptyDB "" 0 (by decide) rfl (by decide)).1 (by decide)⟩

/-! C5: the compound strategy is all-or-nothing. -/

theorem componentDecomp_spec (m : DB) : ∀ (parts : List String) (ds : List Decomp),
    componentDecomp m parts = some ds →
    ds.map (fun d => d.part) = parts ∧
    ∀ d ∈ ds, ∃ mv, directMatch m d.part = some mv ∧ d.chinese = rvChinese mv := by
  intro parts
  induction parts with
  | nil =>
    intro ds h
    simp only [componentDecomp, Option.some.injEq] at h
    subst h
    exact ⟨rfl, by simp⟩
  | cons p rest ih =>
    intro ds h
    unfold componentDecomp at h
    cases hdm : directMatch m p with
    | none => rw [hdm] at h; exact absurd h (by simp)
    | some mv =>
      rw [hdm] at h
      cases hcd : componentDecomp m rest with
      | none => rw [hcd] at h; exact absurd h (by simp)
      | some ds2 =>
        rw [hcd] at h
        simp only [Option.some.injEq] at h
        subst h
        obtain ⟨hmap, hall⟩ := ih ds2 hcd
        refine ⟨by simp [hmap], ?_⟩
        intro d hd
        rcases List.mem_cons.mp hd with hd | hd
        · subst hd
          exact ⟨mv, hdm, rfl⟩
        · exact hall d hd

/-- C5: the compound strategy succeeds only when some pattern matches and,
of its capture groups, the parts of length at least 3 number at least two
and every one of them resolves through Direct lookup; on success the
confidence is 0.75, the synthesized entry has category `Compound`, its key
is the analysed word, and its `chinese` text is the concatenation of the
parts' Chinese glosses in word order. -/
theorem c5_compound_all_or_nothing {m : DB} {w : String} {out : CompOut}
    (h : analyzeCompoundWord m w = some out) :
    out.confidence = mkRat 3 4 ∧ out.result.category = "Compound" ∧
    out.result.english = w ∧ out.result.chinese = joinGloss out.decomposition ∧
    2 ≤ out.decomposition.length ∧
    (∀ d ∈ out.decomposition, 3 ≤ sLen d.part ∧
      ∃ mv, directMatch m d.part = some mv ∧ d.chinese = rvChinese mv) ∧
    ∃ pat ∈ compoundPatterns, ∃ groups, matchPat w pat = some groups ∧
      out.decomposition.map (fun d => d.part) =
        groups.filter (fun s => decide (3 ≤ sLen s)) := by
  unfold analyzeCompoundWord at h
  split at h
  · exact absurd h (by simp)
  · obtain ⟨pat, hpat, hp⟩ := List.exists_of_findSome?_eq_some h
    unfold tryPattern at hp
    split at hp
    · exact absurd hp (by simp)
    · next groups hgroups =>
      simp only [] at hp
      split at hp
      · next h2 =>
        split at hp
        · next ds hds =>
          split at hp
          · next h3 =>
            simp only [Option.some.injEq] at hp
            subst hp
            obtain ⟨hmap, hall⟩ := componentDecomp_spec m _ ds hds
            refine ⟨rfl, rfl, rfl, rfl, h3, ?_, pat, hpat, groups, hgroups, hmap⟩
            intro d hd
            have hdp : d.part ∈ groups.filter (fun s => decide (3 ≤ sLen s)) := by
              rw [← hmap]
              exact List.mem_map_of_mem _ hd
            have hlen : 3 ≤ sLen d.part :=
              of_decide_eq_true (List.mem_filter.mp hdp).2
            exact ⟨hlen, hall d hd⟩
          · exact absurd hp (by simp)
        · exact absurd hp (by simp)
      · exact absurd hp (by simp)

/-- demonstration entries for the compound witness: `bio` → 生 and
`logy` → 学. -/
def bioE : Entry :=
  { english := "bio", chinese := "生", pinyin := "sheng", category := "Nature/Existence",
    priority := 1 }

def logyE : Entry :=
  { english := "logy", chinese := "学", pinyin := "xue", category := "Modern/Abstract",
    priority := 1 }

def bioStore : List Entry := [bioE, logyE]

def dbBio : DB := (buildDB bioStore).getD emptyDB

def bioOut : CompOut :=
  (analyzeCompoundWord dbBio "biology").getD
    { confidence := 0, result := bioE, decomposition := [] }

/-- witness for C5: `biology` over the store {bio, logy} decomposes into
`bio` + `logy` with combined gloss 生学 at confidence 0.75. -/
theorem c5_compound_all_or_nothing_witness :
    analyzeCompoundWord dbBio "biology" = some bioOut ∧
    (bioOut.confidence = mkRat 3 4 ∧ bioOut.result.category = "Compound" ∧
     bioOut.result.english = "biology" ∧
     bioOut.result.chinese = joinGloss bioOut.decomposition ∧
     2 ≤ bioOut.decomposition.length ∧
     (∀ d ∈ bioOut.decomposition, 3 ≤ sLen d.part ∧
       ∃ mv, directMatch dbBio d.part = some mv ∧ d.chinese = rvChinese mv) ∧
     ∃ pat ∈ compoundPatterns, ∃ groups, matchPat "biology" pat = some groups ∧
       bioOut.decomposition.map (fun d => d.part) =
         groups.filter (fun s => decide (3 ≤ sLen s))) :=
  ⟨rfl, c5_compound_all_or_nothing rfl⟩

/-! C7: the scanned fuzzy-candidate window. -/

/-- C7 (amended): the fuzzy strategy's candidate set is exactly the store
entries whose english length lies in the window `max(3, L-3) .. L+3` for
the normalised word's length `L` — a window that is narrower than `±3`
for short words: entries shorter than `max(3, L-3)` are never scanned. -/
theorem c7_scan_window {l : List Entry} {m : DB} (w : String) (E : Entry)
    (hwf : wfDB l) (hbuild : buildDB l = some m) :
    E ∈ scannedEntries m w ↔
      (E ∈ l ∧ fuzzyLo (sLen w) ≤ sLen E.english ∧
        sLen E.english ≤ fuzzyHi (sLen w)) := by
  obtain ⟨m2, hb2, hinv⟩ := buildDB_ok l hwf
  rw [hbuild] at hb2
  simp only [Option.some.injEq] at hb2
  subst hb2
  unfold scannedEntries
  rw [List.mem_flatMap]
  constructor
  · rintro ⟨len, hlen, hE⟩
    rw [bucketAt_inv hinv len] at hE
    have hE2 := List.mem_filter.mp hE
    have hlen2 : sLen E.english = len := of_decide_eq_true hE2.2
    rw [List.mem_range'_1] at hlen
    refine ⟨hE2.1, ?_, ?_⟩ <;> omega
  · rintro ⟨hEl, hlo, hhi⟩
    refine ⟨sLen E.english, ?_, ?_⟩
    · rw [List.mem_range'_1]
      have : fuzzyLo (sLen w) ≤ fuzzyHi (sLen w) := by
        unfold fuzzyLo fuzzyHi
        omega
      omega
    · rw [bucketAt_inv hinv]
      exact List.mem_filter.mpr ⟨hEl, by simp⟩

/-- demonstration entry `ab`, two letters long. -/
def abE : Entry :=
  { english := "ab", chinese := "丙", pinyin := "bing", category := "Nature/Existence",
    priority := 1 }

def abStore : List Entry := [abE]

def dbAb : DB := (buildDB abStore).getD emptyDB

/-- counterexample to C7 as stated: for the normalised word `abab` (length
4) the entry `ab` (length 2) is within `±3` of the word's length, yet it
is never scanned by the fuzzy strategy — the scanned window starts at
`max(3, 4-3) = 3` — and the whole fuzzy search comes back empty. -/
theorem c7_counterexample :
    wfDB abStore ∧ buildDB abStore = some dbAb ∧ abE ∈ abStore ∧
    sLen "abab" - sLen abE.english ≤ 3 ∧ sLen abE.english ≤ sLen "abab" + 3 ∧
    abE ∉ scannedEntries dbAb "abab" ∧
    findSimilarWords dbAb "abab" = none :=
  ⟨by decide, rfl, by decide, by decide, by decide, by decide, by decide⟩

/-- witness for the amended C7: the window equivalence instantiated at the
entry `ab` and the word `abab` (the entry lies outside the scanned
window). -/
theorem c7_scan_window_witness :
    (wfDB abStore ∧ buildDB abStore = some dbAb) ∧
    (abE ∈ scannedEntries dbAb "abab" ↔
      (abE ∈ abStore ∧ fuzzyLo (sLen "abab") ≤ sLen abE.english ∧
        sLen abE.english ≤ fuzzyHi (sLen "abab"))) :=
  ⟨⟨by decide, rfl⟩, @c7_scan_window abStore dbAb "abab" abE (by decide) rfl⟩

/-! C6: ranking and tie-breaking in the fuzzy strategy. -/

theorem candOf_fst {w : String} {c : Entry} {b : Entry × ℚ}
    (h : candOf w c = some b) : b.1 = c := by
  unfold candOf at h
  simp only [] at h
  split at h
  · simp only [Option.some.injEq] at h
    rw [← h]
  · exact absurd h (by simp)

theorem nodup_fuzzyCandidates {l : List Entry} {m : DB} (w : String)
    (hwf : wfDB l) (hinv : StoreInv l m) : (fuzzyCandidates m w).Nodup := by
  have hlnd : l.Nodup := List.Nodup.of_map Entry.english hwf.2
  unfold fuzzyCandidates
  rw [List.nodup_flatMap]
  constructor
  · intro len _
    rw [bucketAt_inv hinv len]
    apply List.Nodup.filterMap
    · intro a a2 b hb hb2
      have h1 : b.1 = a := candOf_fst (Option.mem_def.mp hb)
      have h2 : b.1 = a2 := candOf_fst (Option.mem_def.mp hb2)
      rw [← h1, h2]
    · exact List.Nodup.filter _ hlnd
  · apply List.Pairwise.imp ?_ (List.nodup_range' _ _)
    intro n n2 hne
    intro b hbn hbn2
    simp only [] at hbn hbn2
    rw [bucketAt_inv hinv] at hbn hbn2
    obtain ⟨a, ha, hfa⟩ := List.mem_filterMap.mp hbn
    obtain ⟨a2, ha2, hfa2⟩ := List.mem_filterMap.mp hbn2
    have h1 : b.1 = a := candOf_fst hfa
    have h2 : b.1 = a2 := candOf_fst hfa2
    have haa : a = a2 := by rw [← h1, h2]
    subst haa
    have hn1 : sLen a.english = n := of_decide_eq_true (List.mem_filter.mp ha).2
    have hn2 : sLen a.english = n2 := of_decide_eq_true (List.mem_filter.mp ha2).2
    exact hne (hn1 ▸ hn2)

theorem sublist_pair_antisymm {α : Type} {S : List α} {a b : α}
    (hnd : S.Nodup) (h1 : List.Sublist [a, b] S) (h2 : List.Sublist [b, a] S) :
    a = b := by
  induction S with
  | nil => cases h1
  | cons x t ih =>
    cases h1 with
    | cons _ h1t =>
      cases h2 with
      | cons _ h2t => exact ih (List.nodup_cons.mp hnd).2 h1t h2t
      | cons₂ _ h2t =>
        have hbt : b ∈ t := h1t.subset (by simp)
        exact absurd hbt (List.nodup_cons.mp hnd).1
    | cons₂ _ h1t =>
      cases h2 with
      | cons _ h2t =>
        have hat : a ∈ t := h2t.subset (by simp)
        exact absurd hat (List.nodup_cons.mp hnd).1
      | cons₂ _ h2t => rfl

theorem pair_sublist_of_mem {α : Type} {l : List α} {a b : α}
    (ha : a ∈ l) (hb : b ∈ l) (hne : a ≠ b) :
    List.Sublist [a, b] l ∨ List.Sublist [b, a] l := by
  induction l with
  | nil => simp at ha
  | cons x t ih =>
    rcases List.mem_cons.mp ha with h | hat
    · subst h
      have hbt : b ∈ t := by
        rcases List.mem_cons.mp hb with h2 | h2
        · exact absurd h2.symm hne
        · exact h2
      exact Or.inl (List.Sublist.cons₂ a (List.singleton_sublist.mpr hbt))
    · rcases List.mem_cons.mp hb with h2 | hbt
      · subst h2
        exact Or.inr (List.Sublist.cons₂ b (List.singleton_sublist.mpr hat))
      · rcases ih hat hbt with h3 | h3
        · exact Or.inl (List.Sublist.cons x h3)
        · exact Or.inr (List.Sublist.cons x h3)

theorem sublist_erase_of_not_mem {α : Type} [DecidableEq α] {c l : List α} {x : α}
    (h : List.Sublist c l) (hx : x ∉ c) : List.Sublist c (l.erase x) := by
  induction l generalizing c with
  | nil =>
    rw [List.sublist_nil] at h
    subst h
    simp
  | cons y t ih =>
    by_cases hxy : y = x
    · subst hxy
      rw [List.erase_cons_head]
      cases h with
      | cons _ ht => exact ht
      | cons₂ _ ht => exact absurd (List.mem_cons_self _ _) hx
    · rw [List.erase_cons_tail (by simpa using hxy)]
      cases h with
      | cons _ ht => exact List.Sublist.cons y (ih ht hx)
      | cons₂ _ ht =>
        exact List.Sublist.cons₂ y (ih ht (fun hmem => hx (List.mem_cons_of_mem y hmem)))

/-- the abstract stable descending ranking of a candidate list: a
permutation of the candidates, sorted by descending similarity, in which
tied candidates keep their candidate-list order.  The stable JavaScript
`Array.prototype.sort` under `(a, b) => b.similarity - a.similarity`
produces exactly the list with these three properties, and they determine
it uniquely (`ranks_unique`). -/
def RanksCandidates (cands S : List (Entry × ℚ)) : Prop :=
  List.Perm S cands ∧ S.Sorted simGE ∧
  ∀ a b, List.Sublist [a, b] S → a.2 = b.2 → List.Sublist [a, b] cands

theorem ranks_insertionSort {cands : List (Entry × ℚ)} (hnd : cands.Nodup) :
    RanksCandidates cands (List.insertionSort simGE cands) := by
  refine ⟨List.perm_insertionSort simGE cands, List.sorted_insertionSort simGE cands, ?_⟩
  intro a b hab htie
  have hperm : List.Perm (List.insertionSort simGE cands) cands :=
    List.perm_insertionSort simGE cands
  have hndS : (List.insertionSort simGE cands).Nodup := hperm.symm.nodup hnd
  have hamem : a ∈ cands := hperm.subset (hab.subset (by simp))
  have hbmem : b ∈ cands := hperm.subset (hab.subset (by simp))
  have hne : a ≠ b := by
    intro hEq
    subst hEq
    have hdup : ([a, a] : List (Entry × ℚ)).Nodup := hab.nodup hndS
    simp at hdup
  rcases pair_sublist_of_mem hamem hbmem hne with h | h
  · exact h
  · exfalso
    have hge : simGE b a := le_of_eq htie
    have hba := List.pair_sublist_insertionSort hge h
    exact hne (sublist_pair_antisymm hndS hab hba)

theorem ranks_unique : ∀ (S : List (Entry × ℚ)) {cands S2 : List (Entry × ℚ)},
    cands.Nodup → RanksCandidates cands S → RanksCandidates cands S2 → S = S2 := by
  intro S
  induction S with
  | nil =>
    intro cands S2 hnd h1 h2
    have hc : cands = [] := h1.1.symm.eq_nil
    rw [hc] at h2
    exact (h2.1.eq_nil).symm
  | cons x xs ih =>
    intro cands S2 hnd h1 h2
    obtain ⟨hp1, hs1, hst1⟩ := h1
    obtain ⟨hp2, hs2, hst2⟩ := h2
    cases S2 with
    | nil =>
      have hc : cands = [] := hp2.symm.eq_nil
      rw [hc] at hp1
      exact absurd hp1.eq_nil (by simp)
    | cons y ys =>
      have hSnd : (x :: xs).Nodup := hp1.symm.nodup hnd
      have hS2nd : (y :: ys).Nodup := hp2.symm.nodup hnd
      have hxy : x = y := by
        by_contra hne
        have hxc : x ∈ cands := hp1.subset (List.mem_cons_self _ _)
        have hyc : y ∈ cands := hp2.subset (List.mem_cons_self _ _)
        have hxys : x ∈ ys := by
          rcases List.mem_cons.mp (hp2.symm.subset hxc) with h | h
          · exact absurd h hne
          · exact h
        have hyxs : y ∈ xs := by
          rcases List.mem_cons.mp (hp1.symm.subset hyc) with h | h
          · exact absurd h.symm hne
          · exact h
        have htie : x.2 = y.2 := by
          have h1le : simGE x y := List.rel_of_sorted_cons hs1 y hyxs
          have h2le : simGE y x := List.rel_of_sorted_cons hs2 x hxys
          exact le_antisymm h2le h1le
        have hc1 := hst1 x y (List.Sublist.cons₂ x (List.singleton_sublist.mpr hyxs)) htie
        have hc2 := hst2 y x (List.Sublist.cons₂ y (List.singleton_sublist.mpr hxys))
          htie.symm
        exact hne (sublist_pair_antisymm hnd hc1 hc2)
      subst hxy
      obtain ⟨-, hpx1⟩ := List.cons_perm_iff_perm_erase.mp hp1
      obtain ⟨-, hpx2⟩ := List.cons_perm_iff_perm_erase.mp hp2
      have hndxs : xs.Nodup := (List.nodup_cons.mp hSnd).2
      have hndx := hpx1.nodup hndxs
      refine congrArg (List.cons x)
        (ih hndx ⟨hpx1, hs1.of_cons, ?_⟩ ⟨hpx2, hs2.of_cons, ?_⟩)
      · intro a b hab htie
        have hc := hst1 a b (List.Sublist.cons x hab) htie
        apply sublist_erase_of_not_mem hc
        intro hmem
        have hxnotxs : x ∉ xs := (List.nodup_cons.mp hSnd).1
        rcases List.mem_cons.mp hmem with h | h
        · subst h
          exact hxnotxs (hab.subset (by simp))
        · simp only [List.mem_singleton] at h
          subst h
          exact hxnotxs (hab.subset (by simp))
      · intro a b hab htie
        have hc := hst2 a b (List.Sublist.cons x hab) htie
        apply sublist_erase_of_not_mem hc
        intro hmem
        have hxnotys : x ∉ ys := (List.nodup_cons.mp hS2nd).1
        rcases List.mem_cons.mp hmem with h | h
        · subst h
          exact hxnotys (hab.subset (by simp))
        · simp only [List.mem_singleton] at h
          subst h
          exact hxnotys (hab.subset (by simp))

/-- C6 (amended): on a fuzzy success, every candidate passed the fixed 0.7
threshold, the match is a candidate of maximal similarity, ties among
maximal candidates are broken by candidate scan order — ascending length
bucket, then store insertion order within a bucket (the order of
`fuzzyCandidates`), not by global insertion order — the match's confidence
is its own similarity, and the suggestions are exactly the next up to four
candidates of the stable descending ranking: the match followed by the
suggestion-source tail forms the unique permutation of the candidates that
is sorted by descending similarity and keeps candidate order on ties, and
the suggestions are the first four entries of that tail. -/
theorem c6_fuzzy_ranking {l : List Entry} {m : DB} {w : String} {sm : SimOut}
    (hwf : wfDB l) (hbuild : buildDB l = some m)
    (h : findSimilarWords m w = some sm) :
    mkRat 7 10 ≤ sm.confidence ∧
    sm.confidence = calculateSimilarity w (jsLower sm.result.english) ∧
    (∀ c ∈ fuzzyCandidates m w, c.2 ≤ sm.confidence) ∧
    (∃ pre post, fuzzyCandidates m w = pre ++ (sm.result, sm.confidence) :: post ∧
      ∀ c ∈ pre, c.2 < sm.confidence) ∧
    sm.suggestions.length ≤ 4 ∧
    (∀ s ∈ sm.suggestions, ∃ q, (s, q) ∈ fuzzyCandidates m w ∧
      mkRat 7 10 ≤ q ∧ q ≤ sm.confidence) ∧
    (∃ restS, RanksCandidates (fuzzyCandidates m w) ((sm.result, sm.confidence) :: restS) ∧
      (∀ S2, RanksCandidates (fuzzyCandidates m w) S2 →
        S2 = (sm.result, sm.confidence) :: restS) ∧
      sm.suggestions = (restS.take 4).map (fun c => c.1)) := by
  obtain ⟨m2, hb2, hinv⟩ := buildDB_ok l hwf
  rw [hbuild] at hb2
  simp only [Option.some.injEq] at hb2
  subst hb2
  unfold findSimilarWords at h
  cases hms : List.insertionSort simGE (fuzzyCandidates m w) with
  | nil => rw [hms] at h; exact absurd h (by simp)
  | cons top rest =>
    rw [hms] at h
    simp only [Option.some.injEq] at h
    subst h
    have hperm : List.Perm (List.insertionSort simGE (fuzzyCandidates m w))
        (fuzzyCandidates m w) :=
      List.perm_insertionSort simGE (fuzzyCandidates m w)
    have hsorted : (List.insertionSort simGE (fuzzyCandidates m w)).Sorted simGE :=
      List.sorted_insertionSort simGE (fuzzyCandidates m w)
    rw [hms] at hperm hsorted
    have htop : top ∈ fuzzyCandidates m w :=
      hperm.subset (List.mem_cons_self _ _)
    have hnd : (fuzzyCandidates m w).Nodup := nodup_fuzzyCandidates w hwf hinv
    have hndSorted : (top :: rest).Nodup := hperm.symm.nodup hnd
    have hmax : ∀ c ∈ fuzzyCandidates m w, c.2 ≤ top.2 := by
      intro c hc
      rcases List.mem_cons.mp (hperm.symm.subset hc) with hc2 | hc2
      · rw [hc2]
      · exact List.rel_of_sorted_cons hsorted c hc2
    refine ⟨(mem_fuzzyCandidates_sim htop).1, (mem_fuzzyCandidates_sim htop).2, hmax,
      ?_, ?_, ?_, ?_⟩
    · obtain ⟨pre, post, hsplit⟩ := List.append_of_mem htop
      have htopnotpre : top ∉ pre := by
        intro hin
        have := hnd
        rw [hsplit, List.nodup_append] at this
        exact this.2.2 hin (List.mem_cons_self _ _)
      refine ⟨pre, post, hsplit, ?_⟩
      intro c hc
      by_contra hnot
      have hge : simGE c top := le_of_not_lt hnot
      have hsub : List.Sublist [c, top] (fuzzyCandidates m w) := by
        rw [hsplit]
        have h1 : List.Sublist [c] pre := List.singleton_sublist.mpr hc
        have h2 : List.Sublist [top] (top :: post) :=
          List.singleton_sublist.mpr (List.mem_cons_self _ _)
        exact List.Sublist.append h1 h2
      have hpair := List.pair_sublist_insertionSort hge hsub
      rw [hms] at hpair
      cases hpair with
      | cons₂ _ h2 =>
        exact htopnotpre hc
      | cons _ h2 =>
        have : top ∈ rest := (List.Sublist.subset h2) (by simp)
        exact (List.nodup_cons.mp hndSorted).1 this
    · show ((rest.take 4).map (fun c => c.1)).length ≤ 4
      rw [List.length_map, List.length_take]
      omega
    · intro s hs
      obtain ⟨c, hc, hcs⟩ := List.mem_map.mp hs
      have hcrest : c ∈ rest := List.take_subset 4 rest hc
      have hccand : c ∈ fuzzyCandidates m w :=
        hperm.subset (List.mem_cons_of_mem _ hcrest)
      refine ⟨c.2, ?_, (mem_fuzzyCandidates_sim hccand).1, hmax c hccand⟩
      rw [← hcs]
      exact hccand
    · refine ⟨rest, ?_, ?_, rfl⟩
      · have hranks := ranks_insertionSort hnd
        rw [hms] at hranks
        exact hranks
      · intro S2 h2
        have hranks := ranks_insertionSort hnd
        rw [hms] at hranks
        exact (ranks_unique _ hnd hranks h2).symm

/-- demonstration entries for the fuzzy tie-break: `abcde` is inserted
before `abc`; both contain or are contained in the word `abcd`, so both
have similarity 0.9. -/
def abcdeE : Entry :=
  { english := "abcde", chinese := "甲", pinyin := "jia", category := "Nature/Existence",
    priority := 1 }

def abcE : Entry :=
  { english := "abc", chinese := "乙", pinyin := "yi", category := "Nature/Existence",
    priority := 1 }

def tieStore : List Entry := [abcdeE, abcE]

def dbTie : DB := (buildDB tieStore).getD emptyDB

/-- counterexample to C6 as stated: for the word `abcd` both entries tie at
similarity 0.9, the entry `abcde` precedes `abc` in lexicon insertion
order, yet the match is `abc` — the shorter entry wins because candidates
are collected bucket by ascending length, so ties are broken by bucket
order, not by original insertion order. -/
theorem c6_counterexample :
    wfDB tieStore ∧ buildDB tieStore = some dbTie ∧
    calculateSimilarity "abcd" "abcde" = calculateSimilarity "abcd" "abc" ∧
    (analyzeCore dbTie "abcd" 0).matchType = "similar" ∧
    (analyzeCore dbTie "abcd" 0).result = some (.entryV abcE) ∧
    (analyzeCore dbTie "abcd" 0).result ≠ some (.entryV abcdeE) :=
  ⟨by decide, rfl, by decide, by decide, by decide, by decide⟩

def tieOut : SimOut :=
  (findSimilarWords dbTie "abcd").getD { confidence := 0, result := abcE, suggestions := [] }

/-- witness for the amended C6 at the concrete tie store and the word
`abcd`. -/
theorem c6_fuzzy_ranking_witness :
    (wfDB tieStore ∧ buildDB tieStore = some dbTie ∧
     findSimilarWords dbTie "abcd" = some tieOut) ∧
    (mkRat 7 10 ≤ tieOut.confidence ∧
     tieOut.confidence = calculateSimilarity "abcd" (jsLower tieOut.result.english) ∧
     (∀ c ∈ fuzzyCandidates dbTie "abcd", c.2 ≤ tieOut.confidence) ∧
     (∃ pre post, fuzzyCandidates dbTie "abcd" =
        pre ++ (tieOut.result, tieOut.confidence) :: post ∧
       ∀ c ∈ pre, c.2 < tieOut.confidence) ∧
     tieOut.suggestions.length ≤ 4 ∧
     (∀ s ∈ tieOut.suggestions, ∃ q, (s, q) ∈ fuzzyCandidates dbTie "abcd" ∧
       mkRat 7 10 ≤ q ∧ q ≤ tieOut.confidence) ∧
     (∃ restS, RanksCandidates (fuzzyCandidates dbTie "abcd")
        ((tieOut.result, tieOut.confidence) :: restS) ∧
       (∀ S2, RanksCandidates (fuzzyCandidates dbTie "abcd") S2 →
         S2 = (tieOut.result, tieOut.confidence) :: restS) ∧
       tieOut.suggestions = (restS.take 4).map (fun c => c.1))) :=
  ⟨⟨by decide, rfl, rfl⟩, @c6_fuzzy_ranking tieStore dbTie "abcd" tieOut (by decide) rfl rfl⟩

end Sinographic
